import Mathlib

/-!
# criage-server: localization service

A shallow embedding of `localization.go` (and of the `embed` build's
`localization_embedded.go`) together with theorems about it.

Conventions of the embedding.

* A Go `string` is a Lean `String` (the valid UTF-8 strings).
* A Go `map[string]V` is a `GoMap V`: either the nil map or the list of the
  entries of a made map, read by first match; `store` replaces the value of a
  key in place, so the maps the program builds keep their keys distinct.
  Reading a nil map finds nothing; storing into a nil map is a run-time panic,
  which the model renders as `none`.
* Maps are values here.  The program never lets two entries of the store share
  one inner map (every inner map is created by `make`, by a map literal or by
  `json.Unmarshal`), so value semantics agree with Go's reference semantics.
* The mutex of `Localization` carries no data and is not part of the state.
* What the Go standard library and the operating system supply (environment,
  platform, directory listings, file contents, `filepath.Join`, Unicode case
  mapping, the directives of `fmt.Sprintf` beyond `%d`, `%s`, `%v`, `%%`) is
  read from a `Host` record, so that every theorem holds for every host.
* A file's bytes are seen as `json.Unmarshal` sees them: not a JSON text, or
  the JSON value they spell.
-/

namespace Criage

/-! ## Go maps -/

/-- A Go `map[string]β`: the nil map, or a made map with its entries. -/
inductive GoMap (β : Type) where
  | nil : GoMap β
  | mk (entries : List (String × β)) : GoMap β
  deriving DecidableEq, Repr

namespace GoMap

variable {β : Type}

/-- The result of `make(map[string]β)`. -/
def make : GoMap β := GoMap.mk []

/-- The entries of a map; the nil map has none. -/
def entries : GoMap β → List (String × β)
  | GoMap.nil => []
  | GoMap.mk es => es

/-- Test `m == nil`. -/
def isNil : GoMap β → Bool
  | GoMap.nil => true
  | GoMap.mk _ => false

/-- The comma-ok read `v, ok := m[k]`: `some v` when `ok`, `none` otherwise. -/
def lookup (m : GoMap β) (k : String) : Option β :=
  List.lookup k m.entries

/-- The keys of a map, which is what `for k := range m` visits. -/
def keys (m : GoMap β) : List String :=
  m.entries.map Prod.fst

/-- The value of `len(m)`. -/
def len (m : GoMap β) : Nat :=
  m.entries.length

/-- Replace the value of key `k` in an entry list, or add the entry. -/
def storeEntries (k : String) (v : β) : List (String × β) → List (String × β)
  | [] => [(k, v)]
  | (k', v') :: rest =>
    if k' = k then (k, v) :: rest else (k', v') :: storeEntries k v rest

/-- The assignment `m[k] = v`; `none` is the panic of a store into the nil map. -/
def store (m : GoMap β) (k : String) (v : β) : Option (GoMap β) :=
  match m with
  | GoMap.nil => none
  | GoMap.mk es => some (GoMap.mk (storeEntries k v es))

end GoMap

/-! ## The fragment of `fmt.Sprintf` the program uses -/

/-- An operand passed through `...interface{}`: an `int` or a `string`. -/
inductive Arg where
  | int (n : Int) : Arg
  | str (s : String) : Arg
  deriving DecidableEq, Repr

/-- The output of `reflect.TypeOf(a).String()`. -/
def Arg.typeName : Arg → String
  | Arg.int _ => "int"
  | Arg.str _ => "string"

/-- The output of verb `%v` for an operand. -/
def Arg.render : Arg → String
  | Arg.int n => toString n
  | Arg.str s => s

/-- The output of one directive `%c` applied to operand `a`: `%v` always
prints, `%d` prints integers, `%s` prints strings, and a verb that does not
fit the operand prints Go's bad-verb marker `%!c(type=value)`. -/
def formatVerb (c : Char) (a : Arg) : String :=
  match c, a with
  | 'v', a => a.render
  | 'd', Arg.int n => toString n
  | 's', Arg.str s => s
  | c, a => "%!" ++ String.singleton c ++ "(" ++ a.typeName ++ "=" ++ a.render ++ ")"

/-- The marker Go appends for operands no directive consumed. -/
def extraArgs : List Arg → String
  | [] => ""
  | a :: rest =>
    "%!(EXTRA " ++ ", ".intercalate ((a :: rest).map fun x => x.typeName ++ "=" ++ x.render)
      ++ ")"

/-- The formatting loop of `fmt.Sprintf` over the characters of the format:
plain characters are copied, `%%` prints a percent sign, a `%` at the end
prints `%!(NOVERB)`, a directive without operand prints `%!c(MISSING)`, and
operands left over at the end are reported by `extraArgs`. -/
def sprintfLoop : List Char → List Arg → String
  | [], args => extraArgs args
  | '%' :: [], args => "%!(NOVERB)" ++ extraArgs args
  | '%' :: '%' :: rest, args => "%" ++ sprintfLoop rest args
  | '%' :: c :: rest, [] => "%!" ++ String.singleton c ++ "(MISSING)" ++ sprintfLoop rest []
  | '%' :: c :: rest, a :: args => formatVerb c a ++ sprintfLoop rest args
  | c :: rest, args => String.singleton c ++ sprintfLoop rest args

/-- Whether every directive of a format is one of `%d`, `%s`, `%v`, `%%`
(no flag, width, precision or argument index, no other verb). -/
def plainDirectives : List Char → Bool
  | [] => true
  | '%' :: c :: rest => (c == 'd' || c == 's' || c == 'v' || c == '%') && plainDirectives rest
  | '%' :: [] => true
  | _ :: rest => plainDirectives rest

/-! ## The host: operating system and library behaviour -/

/-- An entry of a directory listing (`os.DirEntry`). -/
structure DirEntry where
  name : String
  isDir : Bool
  deriving DecidableEq, Repr

/-- A JSON value as `encoding/json` parses it; a number keeps its literal. -/
inductive Json where
  | null : Json
  | bool (b : Bool) : Json
  | num (literal : String) : Json
  | str (s : String) : Json
  | arr (items : List Json) : Json
  | obj (members : List (String × Json)) : Json

/-- The bytes of a file, seen through the JSON syntax check that
`json.Unmarshal` runs first: either not a JSON text, or the text of a value. -/
inductive FileData where
  | malformed : FileData
  | json (v : Json) : FileData

/-- What the program reads from its surroundings.

* `getenv` is `os.Getenv` (an unset variable reads as the empty string);
* `goos` is `runtime.GOOS`;
* `readDir` is `os.ReadDir`, `none` when it returns an error;
* `readFile` is `os.ReadFile`, `none` when it returns an error;
* `joinPath` is `filepath.Join` of two elements;
* `unicodeLower` is `unicode.ToLower` on runes outside ASCII;
* `sprintfOther` is `fmt.Sprintf` on formats with a directive other than
  `%d`, `%s`, `%v` and `%%`, which this development leaves to the library. -/
structure Host where
  getenv : String → String
  goos : String
  readDir : String → Option (List DirEntry)
  readFile : String → Option FileData
  joinPath : String → String → String
  unicodeLower : Char → Char
  sprintfOther : String → List Arg → String

/-- The call `fmt.Sprintf(format, args...)`. -/
def Sprintf (h : Host) (format : String) (args : List Arg) : String :=
  if plainDirectives format.toList then sprintfLoop format.toList args
  else h.sprintfOther format args

/-- An `error` value of the program, named by where it is made: the errors
returned by `os.ReadFile`, `json.Unmarshal`, `os.MkdirAll` and `os.WriteFile`,
and the ones built by `fmt.Errorf` in `SetLanguage`, `SaveTranslationsToFile`
and `loadEmbeddedTranslations` (the text of each is fixed by its fields). -/
inductive GoError where
  | readFile (path : String) : GoError
  | unmarshal : GoError
  | mkdirAll (dir : String) : GoError
  | writeFile (path : String) : GoError
  | unsupportedLanguage (language : String) : GoError
  | languageNotFound (language : String) : GoError
  | embeddedNotFound (filename : String) : GoError
  | embeddedParse (language : String) : GoError
  deriving DecidableEq, Repr

/-- The values `json.Unmarshal` stores for the members of an object decoded
into a `map[string]string`, in order (a later duplicate overwrites): a string
member gives its string, `null` gives the zero string, any other value is an
`UnmarshalTypeError`. -/
def unmarshalMembers : List (String × Json) → List (String × String) →
    Except GoError (List (String × String))
  | [], acc => Except.ok acc
  | (k, Json.str s) :: rest, acc => unmarshalMembers rest (GoMap.storeEntries k s acc)
  | (k, Json.null) :: rest, acc => unmarshalMembers rest (GoMap.storeEntries k "" acc)
  | _ :: _, _ => Except.error GoError.unmarshal

/-- The call `json.Unmarshal(data, &translations)` for a nil
`translations map[string]string`: the error, or the value left in
`translations`.  The text `null` leaves the nil map and is no error; an object
makes a map; every other value is an `UnmarshalTypeError`. -/
def Unmarshal : FileData → Except GoError (GoMap String)
  | FileData.malformed => Except.error GoError.unmarshal
  | FileData.json Json.null => Except.ok GoMap.nil
  | FileData.json (Json.obj members) =>
    match unmarshalMembers members [] with
    | Except.ok es => Except.ok (GoMap.mk es)
    | Except.error e => Except.error e
  | FileData.json _ => Except.error GoError.unmarshal

/-! ## Strings and the file-name pattern -/

/-- Membership in the character class `[a-z]`. -/
def lowerAZ (c : Char) : Bool :=
  'a' ≤ c && c ≤ 'z'

/-- Membership in the character class `[A-Z]`. -/
def upperAZ (c : Char) : Bool :=
  'A' ≤ c && c ≤ 'Z'

/-- Whether the whole text matches `[a-z]{2}(?:-[A-Z]{2})?`. -/
def isLanguageCode : List Char → Bool
  | [a, b] => lowerAZ a && lowerAZ b
  | [a, b, '-', c, d] => lowerAZ a && lowerAZ b && upperAZ c && upperAZ d
  | _ => false

/-- The capture group of `FindStringSubmatch` for an anchored pattern
`^<lead>([a-z]{2}(?:-[A-Z]{2})?)\.json$`, where `lead` is literal text:
`some code` when the name matches (the result then has length 2), `none` when
it does not (the result is nil). -/
def findLanguageCode (lead : String) (name : String) : Option String :=
  let cs := name.toList
  let p := lead.toList
  let s := ".json".toList
  if p.isPrefixOf cs && s.isSuffixOf (cs.drop p.length) then
    let code := (cs.drop p.length).take (cs.length - p.length - s.length)
    if isLanguageCode code then some (String.mk code) else none
  else none

/-- The value `strings.Split(value, "_")[0]`: the text before the first
underscore, the whole text when it has none. -/
def beforeUnderscore (value : String) : String :=
  String.mk (value.toList.takeWhile fun c => c != '_')

/-- The function `strings.ToLower`: ASCII letters by the ASCII rule, other
runes by the host's `unicode.ToLower`. -/
def ToLower (h : Host) (s : String) : String :=
  String.mk (s.toList.map fun c => if c.val < 128 then c.toLower else h.unicodeLower c)

/-- The function `strings.HasPrefix`. -/
def HasPrefix (s lead : String) : Bool :=
  lead.toList.isPrefixOf s.toList

/-! ## The localization state and its operations -/

/-- The struct `Localization` without its mutex. -/
structure Localization where
  currentLanguage : String
  supportedLanguages : List String
  translations : GoMap (GoMap String)
  translationsDir : String
  useEmbedded : Bool
  deriving DecidableEq, Repr

/-- The constant `DefaultLanguage`. -/
def DefaultLanguage : String := "en"

namespace Localization

/-- The built-in minimal tables of `getDefaultTranslations`. -/
def builtinTranslations : GoMap (GoMap String) :=
  GoMap.mk [
    ("ru", GoMap.mk [
      ("server_started", "Сервер запущен на порту %d"),
      ("server_stopped", "Сервер остановлен"),
      ("package_uploaded", "Пакет загружен"),
      ("package_not_found", "Пакет не найден"),
      ("invalid_request", "Неверный запрос"),
      ("internal_error", "Внутренняя ошибка сервера")]),
    ("en", GoMap.mk [
      ("server_started", "Server started on port %d"),
      ("server_stopped", "Server stopped"),
      ("package_uploaded", "Package uploaded"),
      ("package_not_found", "Package not found"),
      ("invalid_request", "Invalid request"),
      ("internal_error", "Internal server error")]),
    ("de", GoMap.mk [
      ("server_started", "Server auf Port %d gestartet"),
      ("server_stopped", "Server gestoppt"),
      ("package_uploaded", "Paket hochgeladen"),
      ("package_not_found", "Paket nicht gefunden"),
      ("invalid_request", "Ungültige Anfrage"),
      ("internal_error", "Interner Serverfehler")]),
    ("fr", GoMap.mk [
      ("server_started", "Serveur démarré sur le port %d"),
      ("server_stopped", "Serveur arrêté"),
      ("package_uploaded", "Paquet téléchargé"),
      ("package_not_found", "Paquet introuvable"),
      ("invalid_request", "Requête invalide"),
      ("internal_error", "Erreur interne du serveur")])]

/-- The method `getDefaultTranslations`: the built-in table of the language,
the English one when the language has none. -/
def getDefaultTranslations (language : String) : GoMap String :=
  match builtinTranslations.lookup language with
  | some table => table
  | none => (builtinTranslations.lookup "en").getD GoMap.nil

/-- The method `SetLanguage`: the state after the call and the error returned. -/
def SetLanguage (l : Localization) (language : String) :
    Localization × Option GoError :=
  match l.translations.lookup language with
  | none => (l, some (GoError.unsupportedLanguage language))
  | some _ => ({ l with currentLanguage := language }, none)

/-- The method `GetLanguage`. -/
def GetLanguage (l : Localization) : String :=
  l.currentLanguage

/-- The table `Get` looks the key up in (lines 235-243): the one of the current
language, else the one of the default language, else the one of the first
supported language (the nil map when the store has none for it), else the nil
map that `translations` holds as its zero value. -/
def selectTable (l : Localization) : GoMap String :=
  match l.translations.lookup l.currentLanguage with
  | some translations => translations
  | none =>
    match l.translations.lookup DefaultLanguage with
    | some fallbackTranslations => fallbackTranslations
    | none =>
      match l.supportedLanguages with
      | first :: _ => (l.translations.lookup first).getD GoMap.nil
      | [] => GoMap.nil

/-- The method `Get`. -/
def Get (h : Host) (l : Localization) (key : String) (args : List Arg) : String :=
  match (selectTable l).lookup key with
  | some translation =>
    if args.length > 0 then Sprintf h translation args else translation
  | none => key

/-- The method `GetSupportedLanguages`: the keys of the store. -/
def GetSupportedLanguages (l : Localization) : List String :=
  l.translations.keys

/-- The method `IsEmbedded`. -/
def IsEmbedded (l : Localization) : Bool :=
  l.useEmbedded

/-- The merge loop of `LoadTranslationsFromFile` (lines 309-311): each entry
of the decoded map is stored into the table of `language`. -/
def mergeEntries (language : String) :
    List (String × String) → GoMap (GoMap String) → Option (GoMap (GoMap String))
  | [], store => some store
  | (key, value) :: rest, store =>
    match ((store.lookup language).getD GoMap.nil).store key value with
    | none => none
    | some table =>
      match store.store language table with
      | none => none
      | some store' => mergeEntries language rest store'

/-- The method `LoadTranslationsFromFile`: `none` is a run-time panic (a store
into a nil map), otherwise the state after the call and the error returned. -/
def LoadTranslationsFromFile (h : Host) (l : Localization) (language filePath : String) :
    Option (Localization × Option GoError) :=
  match h.readFile filePath with
  | none => some (l, some (GoError.readFile filePath))
  | some data =>
    match Unmarshal data with
    | Except.error err => some (l, some err)
    | Except.ok translations =>
      let made : Option (GoMap (GoMap String)) :=
        if ((l.translations.lookup language).getD GoMap.nil).isNil then
          l.translations.store language GoMap.make
        else some l.translations
      match made with
      | none => none
      | some store =>
        match mergeEntries language translations.entries store with
        | none => none
        | some store' => some ({ l with translations := store' }, none)

/-- One round of the scanning loop (lines 93-106) on the pair of
`languageSet`, held by its entries since it is made before the loop, and
`supportedLanguages`. -/
def scanStep (lead : String) (acc : List (String × Bool) × List String)
    (isDir : Bool) (name : String) : List (String × Bool) × List String :=
  if isDir then acc
  else
    match findLanguageCode lead name with
    | some languageCode =>
      if !((List.lookup languageCode acc.1).getD false) then
        (GoMap.storeEntries languageCode true acc.1, acc.2 ++ [languageCode])
      else acc
    | none => acc

/-- The scanning loop of `scanAvailableLanguages` over a directory listing. -/
def scanFiles (files : List DirEntry) : List (String × Bool) × List String :=
  files.foldl (fun acc file => scanStep "translations_" acc file.isDir file.name) ([], [])

/-- The method `scanAvailableLanguages`. -/
def scanAvailableLanguages (h : Host) (l : Localization) : Localization :=
  match h.readDir l.translationsDir with
  | none => { l with supportedLanguages := [DefaultLanguage] }
  | some files =>
    let found := (scanFiles files).2
    if found.length = 0 then { l with supportedLanguages := [DefaultLanguage] }
    else { l with supportedLanguages := found }

/-- The environment variables `detectSystemLanguage` reads, in its order. -/
def localeVariables : List String := ["LANG", "LC_ALL", "LC_MESSAGES", "LANGUAGE"]

/-- The first loop of `detectSystemLanguage` (lines 117-129) over the
variables left to read: the language it returns, `none` when it ends without
returning. -/
def detectFromEnv (h : Host) (supported : List String) : List String → Option String
  | [] => none
  | env :: rest =>
    let value := h.getenv env
    if value ≠ "" then
      let langCode := ToLower h (beforeUnderscore value)
      match supported.find? fun supportedLang => HasPrefix supportedLang langCode with
      | some supportedLang => some supportedLang
      | none => detectFromEnv h supported rest
    else detectFromEnv h supported rest

/-- The method `detectSystemLanguage`. -/
def detectSystemLanguage (h : Host) (l : Localization) : String :=
  match detectFromEnv h l.supportedLanguages localeVariables with
  | some supportedLang => supportedLang
  | none =>
    if h.goos = "windows" && l.supportedLanguages.any (fun s => s == DefaultLanguage) then
      DefaultLanguage
    else
      match l.supportedLanguages with
      | first :: _ => first
      | [] => DefaultLanguage

/-- The body of the loop of `initializeTranslations` for one language. -/
def initializeLanguage (h : Host) (l : Localization) (language : String) :
    Option Localization :=
  match l.translations.store language GoMap.make with
  | none => none
  | some store =>
    let filename := Sprintf h "translations_%s.json" [Arg.str language]
    let filePath := h.joinPath l.translationsDir filename
    match LoadTranslationsFromFile h { l with translations := store } language filePath with
    | none => none
    | some (l', none) => some l'
    | some (l', some _) =>
      match l'.translations.store language (getDefaultTranslations language) with
      | none => none
      | some store' => some { l' with translations := store' }

/-- The loop of `initializeTranslations` over the languages left to visit. -/
def initializeLoop (h : Host) : List String → Localization → Option Localization
  | [], l => some l
  | language :: rest, l =>
    match initializeLanguage h l language with
    | none => none
    | some l' => initializeLoop h rest l'

/-- The method `initializeTranslations`; `none` is a run-time panic. -/
def initializeTranslations (h : Host) (l : Localization) : Option Localization :=
  initializeLoop h l.supportedLanguages l

end Localization

/-- The constructor `NewLocalizationWithDir`; `none` is a run-time panic. -/
def NewLocalizationWithDir (h : Host) (translationsDir : String) : Option Localization :=
  let l0 : Localization :=
    { currentLanguage := "", supportedLanguages := [], translations := GoMap.make,
      translationsDir := translationsDir, useEmbedded := false }
  let l1 := l0.scanAvailableLanguages h
  let l2 := { l1 with currentLanguage := l1.detectSystemLanguage h }
  l2.initializeTranslations h

/-- The constructor `NewLocalization`. -/
def NewLocalization (h : Host) : Option Localization :=
  NewLocalizationWithDir h "locale"

/-! ## The `embed` build (`localization_embedded.go`) -/

/-- One call of the `fs.WalkDir` callback: the path, whether the entry is a
directory, and whether the walk reports an error for it. -/
structure WalkEntry where
  path : String
  isDir : Bool
  failed : Bool
  deriving DecidableEq, Repr

/-- The embedded file system `embeddedRepositoryLocaleFS`: the entries
`fs.WalkDir` visits from its root, in order, and its `ReadFile` (`none` when it
returns an error). -/
structure Bundle where
  walk : List WalkEntry
  readFile : String → Option FileData

namespace Localization

/-- The loop that `fs.WalkDir` drives in `scanEmbeddedLanguages`: an entry
reported with an error is passed over, the others go through the same step as
a directory listing, with the pattern rooted at `locale/`. -/
def scanWalk (entries : List WalkEntry) : List (String × Bool) × List String :=
  entries.foldl
    (fun acc d => if d.failed then acc else scanStep "locale/translations_" acc d.isDir d.path)
    ([], [])

/-- The method `scanEmbeddedLanguages`. -/
def scanEmbeddedLanguages (b : Bundle) (l : Localization) : Localization :=
  let found := (scanWalk b.walk).2
  if found.length = 0 then { l with supportedLanguages := [DefaultLanguage] }
  else { l with supportedLanguages := found }

/-- The method `loadEmbeddedTranslations`: `none` is a run-time panic,
otherwise the state after the call and the error returned. -/
def loadEmbeddedTranslations (b : Bundle) (l : Localization)
    (language filename : String) : Option (Localization × Option GoError) :=
  match b.readFile filename with
  | none => some (l, some (GoError.embeddedNotFound filename))
  | some data =>
    match Unmarshal data with
    | Except.error _ => some (l, some (GoError.embeddedParse language))
    | Except.ok translations =>
      match l.translations.store language translations with
      | none => none
      | some store => some ({ l with translations := store }, none)

/-- The body of the loop of `initializeEmbeddedTranslations` for one language. -/
def initializeEmbeddedLanguage (h : Host) (b : Bundle) (l : Localization)
    (language : String) : Option Localization :=
  match l.translations.store language GoMap.make with
  | none => none
  | some store =>
    let filename := Sprintf h "locale/translations_%s.json" [Arg.str language]
    match loadEmbeddedTranslations b { l with translations := store } language filename with
    | none => none
    | some (l', none) => some l'
    | some (l', some _) =>
      match l'.translations.store language (getDefaultTranslations language) with
      | none => none
      | some store' => some { l' with translations := store' }

/-- The loop of `initializeEmbeddedTranslations` over the languages left. -/
def initializeEmbeddedLoop (h : Host) (b : Bundle) :
    List String → Localization → Option Localization
  | [], l => some l
  | language :: rest, l =>
    match initializeEmbeddedLanguage h b l language with
    | none => none
    | some l' => initializeEmbeddedLoop h b rest l'

/-- The method `initializeEmbeddedTranslations`; `none` is a run-time panic. -/
def initializeEmbeddedTranslations (h : Host) (b : Bundle) (l : Localization) :
    Option Localization :=
  initializeEmbeddedLoop h b l.supportedLanguages l

end Localization

/-- The constructor `NewEmbeddedLocalization` of the `embed` build; `none` is
a run-time panic. -/
def NewEmbeddedLocalization (h : Host) (b : Bundle) : Option Localization :=
  let l0 : Localization :=
    { currentLanguage := "", supportedLanguages := [], translations := GoMap.make,
      translationsDir := "", useEmbedded := true }
  let l1 := l0.scanEmbeddedLanguages b
  let l2 := { l1 with currentLanguage := l1.detectSystemLanguage h }
  l2.initializeEmbeddedTranslations h b

/-- The constructor `NewEmbeddedLocalization` of the build without the `embed`
tag (`localization_stub.go`). -/
def NewEmbeddedLocalizationStub (h : Host) : Option Localization :=
  NewLocalization h

/-! ## Saving a table -/

/-- The output of `json.MarshalIndent` for a `map[string]string`, as the JSON
value its text spells: `null` for the nil map, otherwise the object of the
entries, each value a string, in the order of the sorted keys (the order in
which `encoding/json` writes a map). -/
def MarshalIndent (translations : GoMap String) : FileData :=
  match translations with
  | GoMap.nil => FileData.json Json.null
  | GoMap.mk es =>
    FileData.json (Json.obj
      ((es.insertionSort fun a b => ¬ b.1 < a.1).map fun kv => (kv.1, Json.str kv.2)))

/-- The answers of the operating system to what `SaveTranslationsToFile` asks
of it: `dirOf` is `filepath.Dir`, `mkdirAll` tells whether
`os.MkdirAll(dir, 0755)` succeeds, `writeFile` whether
`os.WriteFile(path, data, 0644)` succeeds. -/
structure Disk where
  dirOf : String → String
  mkdirAll : String → Bool
  writeFile : String → FileData → Bool

/-- The method `SaveTranslationsToFile`: the error it returns and, when it
returns none, the content it has written to `filePath`. -/
def Localization.SaveTranslationsToFile (d : Disk) (l : Localization)
    (language filePath : String) : Option GoError × Option FileData :=
  match l.translations.lookup language with
  | none => (some (GoError.languageNotFound language), none)
  | some translations =>
    if d.mkdirAll (d.dirOf filePath) then
      let data := MarshalIndent translations
      if d.writeFile filePath data then (none, some data)
      else (some (GoError.writeFile filePath), none)
    else (some (GoError.mkdirAll (d.dirOf filePath)), none)

/-! ## Locking

The order in which each public method takes the instance's `RWMutex` and
touches the fields it guards. -/

/-- The mutable data reached from a `Localization`: its fields, and the
per-language tables that the store's entries refer to. -/
inductive SharedData where
  | currentLanguage : SharedData
  | supportedLanguages : SharedData
  | translations : SharedData
  | table : SharedData
  | useEmbedded : SharedData
  deriving DecidableEq, Repr

/-- A step of a method that concerns the mutex or the shared data. -/
inductive LockStep where
  | rLock : LockStep
  | rUnlock : LockStep
  | lock : LockStep
  | unlock : LockStep
  | read (data : SharedData) : LockStep
  | write (data : SharedData) : LockStep
  deriving DecidableEq, Repr

/-- The public methods of `Localization`. -/
inductive Method where
  | SetLanguage : Method
  | GetLanguage : Method
  | Get : Method
  | GetSupportedLanguages : Method
  | IsEmbedded : Method
  | LoadTranslationsFromFile : Method
  | SaveTranslationsToFile : Method
  deriving DecidableEq, Repr

/-- The steps of a method in program order, along the path that runs every
statement (a deferred unlock runs at the return):

* `SetLanguage` (lines 212-220) locks, reads the store, writes the language;
* `GetLanguage` (225-227) and `IsEmbedded` (284-286) read one field under the
  read lock;
* `Get` (232-253) reads, under the read lock, the language, the store, the
  catalogue and the selected table;
* `GetSupportedLanguages` (258-266) ranges over the store under the read lock;
* `LoadTranslationsFromFile` (291-313) locks, tests and writes the store's
  entry, then writes the table;
* `SaveTranslationsToFile` (318-336) reads the store's entry under the read
  lock, unlocks on line 320, and reads the table on line 331, in
  `json.MarshalIndent`. -/
def lockSteps : Method → List LockStep
  | Method.SetLanguage =>
    [LockStep.lock, LockStep.read SharedData.translations,
      LockStep.write SharedData.currentLanguage, LockStep.unlock]
  | Method.GetLanguage =>
    [LockStep.rLock, LockStep.read SharedData.currentLanguage, LockStep.rUnlock]
  | Method.Get =>
    [LockStep.rLock, LockStep.read SharedData.currentLanguage,
      LockStep.read SharedData.translations, LockStep.read SharedData.translations,
      LockStep.read SharedData.supportedLanguages, LockStep.read SharedData.translations,
      LockStep.read SharedData.table, LockStep.rUnlock]
  | Method.GetSupportedLanguages =>
    [LockStep.rLock, LockStep.read SharedData.translations, LockStep.rUnlock]
  | Method.IsEmbedded =>
    [LockStep.rLock, LockStep.read SharedData.useEmbedded, LockStep.rUnlock]
  | Method.LoadTranslationsFromFile =>
    [LockStep.lock, LockStep.read SharedData.translations,
      LockStep.write SharedData.translations, LockStep.read SharedData.translations,
      LockStep.write SharedData.table, LockStep.unlock]
  | Method.SaveTranslationsToFile =>
    [LockStep.rLock, LockStep.read SharedData.translations, LockStep.rUnlock,
      LockStep.read SharedData.table]

/-- How a goroutine holds the mutex. -/
inductive Held where
  | free : Held
  | shared : Held
  | exclusive : Held
  deriving DecidableEq, Repr

/-- Whether a sequence of steps, started in state `held`, keeps the locking
discipline: shared data is read only while the mutex is held (either way) and
written only while it is held exclusively, and the mutex is taken and released
in pairs. -/
def disciplined : Held → List LockStep → Bool
  | _, [] => true
  | Held.free, LockStep.rLock :: rest => disciplined Held.shared rest
  | Held.shared, LockStep.rUnlock :: rest => disciplined Held.free rest
  | Held.free, LockStep.lock :: rest => disciplined Held.exclusive rest
  | Held.exclusive, LockStep.unlock :: rest => disciplined Held.free rest
  | Held.shared, LockStep.read _ :: rest => disciplined Held.shared rest
  | Held.exclusive, LockStep.read _ :: rest => disciplined Held.exclusive rest
  | Held.exclusive, LockStep.write _ :: rest => disciplined Held.exclusive rest
  | _, _ => false

/-! ## Notions of the specification

These definitions follow the words of the specification, not the source; the
theorems below compare the program with them. -/

/-- The pattern `^[a-z]{2}(-[A-Z]{2})?$` of the file naming convention: two
lower-case letters, optionally followed by a hyphen and two upper-case
letters. -/
def MatchesCodePattern (code : String) : Prop :=
  ∃ a b : Char, lowerAZ a = true ∧ lowerAZ b = true ∧
    (code = String.mk [a, b] ∨
      ∃ c d : Char, upperAZ c = true ∧ upperAZ d = true ∧ code = String.mk [a, b, '-', c, d])

/-- The file naming convention: `name` is `translations_<code>.json` with
`<code>` matching the pattern. -/
def IsTranslationFileName (name code : String) : Prop :=
  MatchesCodePattern code ∧ name = "translations_" ++ code ++ ".json"

/-- A list without its repetitions: each element once, at the place of its
first occurrence. -/
def firstOccurrences : List String → List String
  | [] => []
  | x :: xs => x :: (firstOccurrences xs).filter fun y => y != x

/-- The candidate code of a locale value: the lower-cased text before its
first underscore. -/
def candidate (h : Host) (value : String) : String :=
  ToLower h (beforeUnderscore value)

/-- The first of the locale variables whose value is not empty, with its
value. -/
def firstNonEmptyVariable (getenv : String → String) : Option (String × String) :=
  (Localization.localeVariables.find? fun v => getenv v != "").map fun v => (v, getenv v)

/-- The first of the locale variables whose value is not empty and whose
candidate is the beginning of a supported code, with its value. -/
def firstMatchingVariable (h : Host) (getenv : String → String) (catalogue : List String) :
    Option (String × String) :=
  (Localization.localeVariables.find? fun v =>
    getenv v != "" && catalogue.any fun s => HasPrefix s (candidate h (getenv v))).map
    fun v => (v, getenv v)

/-- The store of `l` has an entry for `c` (its table may be the nil map). -/
def HasEntry (l : Localization) (c : String) : Prop :=
  ∃ t, l.translations.lookup c = some t

/-- The store of `l` holds for `c` a table that is not nil (it may be empty). -/
def HasTable (l : Localization) (c : String) : Prop :=
  ∃ t, l.translations.lookup c = some t ∧ t.isNil = false

/-- The six keys of a built-in set, in the order of the source. -/
def builtinKeys : List String :=
  ["server_started", "server_stopped", "package_uploaded", "package_not_found",
    "invalid_request", "internal_error"]

/-- The JSON object that spells a flat mapping of string keys to string values. -/
def flatObject (m : List (String × String)) : Json :=
  Json.obj (m.map fun kv => (kv.1, Json.str kv.2))

/-- The contents `json.Unmarshal` accepts for a `map[string]string`: the JSON
value `null`, and a JSON object whose members are all strings or `null`. -/
def Decodable (data : FileData) : Prop :=
  data = FileData.json Json.null ∨
    ∃ members, data = FileData.json (Json.obj members) ∧
      ∀ kv ∈ members, kv.2 = Json.null ∨ ∃ s, kv.2 = Json.str s

/-- A call of a public method that can change the state: `SetLanguage(code)`,
or `LoadTranslationsFromFile(code, path)` on the host as it is at that time. -/
inductive Call where
  | setLanguage (code : String) : Call
  | load (h : Host) (code path : String) : Call

/-- The state after a call; `none` is a run-time panic. -/
def Call.run (l : Localization) : Call → Option Localization
  | Call.setLanguage code => some (Localization.SetLanguage l code).1
  | Call.load h code path =>
    (Localization.LoadTranslationsFromFile h l code path).map Prod.fst

/-- The state after a sequence of calls; `none` is a run-time panic. -/
def runCalls : List Call → Localization → Option Localization
  | [], l => some l
  | call :: rest, l =>
    match call.run l with
    | none => none
    | some l' => runCalls rest l'

/-- The codes that the `LoadTranslationsFromFile` calls of a sequence name. -/
def loadedCodes : List Call → List String
  | [] => []
  | Call.setLanguage _ :: rest => loadedCodes rest
  | Call.load _ code _ :: rest => code :: loadedCodes rest

/-- The string `json.Unmarshal` stores for a member of an object decoded into
a `map[string]string`: the member's string, the empty string for `null`. -/
def memberText : Json → String
  | Json.str s => s
  | _ => ""

/-- The key-value pairs a content spells for a `map[string]string`, in the
order of its text: none for the JSON value `null`, one for each member of an
object. -/
def spelledPairs : FileData → List (String × String)
  | FileData.json (Json.obj members) => members.map fun kv => (kv.1, memberText kv.2)
  | _ => []

/-- The value a list of pairs gives a key: that of the last pair with the key. -/
def lastValue (key : String) (pairs : List (String × String)) : Option String :=
  List.lookup key pairs.reverse

/-- The codes of the `LoadTranslationsFromFile` calls of a sequence that
return without error, the sequence being run from state `l`. -/
def succeededLoads : List Call → Localization → List String
  | [], _ => []
  | Call.setLanguage code :: rest, l =>
    succeededLoads rest (Localization.SetLanguage l code).1
  | Call.load h code path :: rest, l =>
    match Localization.LoadTranslationsFromFile h l code path with
    | some (l', none) => code :: succeededLoads rest l'
    | some (l', some _) => succeededLoads rest l'
    | none => []

/-! ## Auxiliary notions of the proofs -/

/-- The catalogue loop without the set: a code is appended unless listed. -/
def appendNew (langs : List String) : List String → List String
  | [] => langs
  | c :: cs => if c ∈ langs then appendNew langs cs else appendNew (langs ++ [c]) cs

/-- The set of the scanning loop records exactly the listed codes. -/
def SetTracks (acc : List (String × Bool) × List String) : Prop :=
  ∀ c, (List.lookup c acc.1).getD false = decide (c ∈ acc.2)

/-- The table `initializeTranslations` leaves for a language of the catalogue:
the decoded content of its file, or the built-in set when the file cannot be
read or decoded. -/
def expectedTable (h : Host) (dir language : String) : GoMap String :=
  match h.readFile (h.joinPath dir (Sprintf h "translations_%s.json" [Arg.str language])) with
  | none => Localization.getDefaultTranslations language
  | some data =>
    match Unmarshal data with
    | Except.error _ => Localization.getDefaultTranslations language
    | Except.ok decoded =>
      GoMap.mk (decoded.entries.foldl (fun es e => GoMap.storeEntries e.1 e.2 es) [])

/-- The store is a made map with distinct keys, one of them the active
language, and all of them among `codes`. -/
def StoreInvariant (l : Localization) (codes : List String) : Prop :=
  l.translations.isNil = false ∧ l.translations.keys.Nodup ∧
    l.currentLanguage ∈ l.translations.keys ∧ ∀ k ∈ l.translations.keys, k ∈ codes

/-! ## Sample inputs -/

/-- A host with an empty environment, no readable directory and no readable
file, on Linux. -/
def bareHost : Host where
  getenv := fun _ => ""
  goos := "linux"
  readDir := fun _ => none
  readFile := fun _ => none
  joinPath := fun dir file => dir ++ "/" ++ file
  unicodeLower := fun c => c
  sprintfOther := fun format _ => format

/-- The state `NewLocalizationWithDir` builds on `bareHost`: English only,
with the built-in table. -/
def englishOnly : Localization where
  currentLanguage := "en"
  supportedLanguages := ["en"]
  translations := GoMap.mk [("en", Localization.getDefaultTranslations "en")]
  translationsDir := "locale"
  useEmbedded := false

/-- The state of a fresh `Localization` for directory `locale`, before the
scan. -/
def freshLocale : Localization where
  currentLanguage := ""
  supportedLanguages := []
  translations := GoMap.make
  translationsDir := "locale"
  useEmbedded := false

/-- A host whose directory `locale` holds the one file `translations_ru.json`. -/
def russianHost : Host :=
  { bareHost with
    readDir := fun dir =>
      if dir = "locale" then some [{ name := "translations_ru.json", isDir := false }] else none }

/-- A host whose directory `locale` holds no translation file: a text file,
a file whose code is not of the pattern, and a directory named like a
translation file. -/
def strayHost : Host :=
  { bareHost with
    readDir := fun dir =>
      if dir = "locale" then
        some [{ name := "README.md", isDir := false },
              { name := "translations_eng.json", isDir := false },
              { name := "translations_de.json", isDir := true }]
      else none }

/-- A fresh state whose catalogue is `["en", "ru"]`. -/
def twoLanguages : Localization :=
  { freshLocale with supportedLanguages := ["en", "ru"] }

/-- A host with `LANG=ru_RU.UTF-8` and no other locale variable. -/
def langHost : Host :=
  { bareHost with getenv := fun v => if v = "LANG" then "ru_RU.UTF-8" else "" }

/-- A host with `LANG=xx_XX` and no other locale variable. -/
def unmatchedHost : Host :=
  { bareHost with getenv := fun v => if v = "LANG" then "xx_XX" else "" }

/-- A host with `LANG=xx_XX` and `LC_ALL=ru_RU.UTF-8`. -/
def laterVariableHost : Host :=
  { bareHost with
    getenv := fun v =>
      if v = "LANG" then "xx_XX" else if v = "LC_ALL" then "ru_RU.UTF-8" else "" }

/-- A host with `LC_ALL=ru_RU.UTF-8` and `LANGUAGE=en_US`. -/
def lcAllHost : Host :=
  { bareHost with
    getenv := fun v =>
      if v = "LC_ALL" then "ru_RU.UTF-8" else if v = "LANGUAGE" then "en_US" else "" }

/-- The host `bareHost` on Windows. -/
def windowsHost : Host :=
  { bareHost with goos := "windows" }

/-- A bundle with the one file `locale/translations_en.json`, whose content is
the JSON text `null`. -/
def nullBundle : Bundle where
  walk := [{ path := ".", isDir := true, failed := false },
           { path := "locale", isDir := true, failed := false },
           { path := "locale/translations_en.json", isDir := false, failed := false }]
  readFile := fun path =>
    if path = "locale/translations_en.json" then some (FileData.json Json.null) else none

/-- A host whose directory `locale` holds the one file `translations_en.json`,
whose content is the JSON text `null`. -/
def nullFileHost : Host :=
  { bareHost with
    readDir := fun dir =>
      if dir = "locale" then some [{ name := "translations_en.json", isDir := false }] else none
    readFile := fun path =>
      if path = "locale/translations_en.json" then some (FileData.json Json.null) else none }

/-- A host whose file `extra.json` holds the empty JSON object. -/
def extraHost : Host :=
  { bareHost with
    readFile := fun path =>
      if path = "extra.json" then some (FileData.json (Json.obj [])) else none }

/-- A host whose file `patch.json` holds a flat mapping of two keys. -/
def patchHost : Host :=
  { bareHost with
    readFile := fun path =>
      if path = "patch.json" then
        some (FileData.json (flatObject
          [("server_stopped", "Server halted"), ("greeting", "Hello %s")]))
      else none }

/-- A host whose file `list.json` holds a JSON array and whose file
`nulls.json` holds an object with a `null` member. -/
def oddHost : Host :=
  { bareHost with
    readFile := fun path =>
      if path = "list.json" then some (FileData.json (Json.arr [Json.str "a"]))
      else if path = "nulls.json" then some (FileData.json (Json.obj [("a", Json.null)]))
      else none }

/-- The state after loading `patch.json` of `patchHost` for `ru` into
`englishOnly`. -/
def patchedRussian : Localization :=
  { englishOnly with
    translations := GoMap.mk
      [("en", Localization.getDefaultTranslations "en"),
       ("ru", GoMap.mk [("server_stopped", "Server halted"), ("greeting", "Hello %s")])] }

/-- A host whose directory `locale` holds `translations_en.json`, a flat
mapping of two keys, and `translations_ru.json`, which is not JSON. -/
def mixedHost : Host :=
  { bareHost with
    readDir := fun dir =>
      if dir = "locale" then
        some [{ name := "translations_en.json", isDir := false },
              { name := "translations_ru.json", isDir := false }]
      else none
    readFile := fun path =>
      if path = "locale/translations_en.json" then
        some (FileData.json (flatObject [("hello", "Hello"), ("bye", "Goodbye")]))
      else if path = "locale/translations_ru.json" then some FileData.malformed
      else none }

/-- The calls `LoadTranslationsFromFile("xx", "extra.json")`, on `extraHost`,
and then `SetLanguage("xx")`. -/
def switchCalls : List Call :=
  [Call.load extraHost "xx" "extra.json", Call.setLanguage "xx"]

/-- The state `englishOnly` with an empty table for `xx` added. -/
def extraLoaded : Localization :=
  { englishOnly with
    translations := GoMap.mk
      [("en", Localization.getDefaultTranslations "en"), ("xx", GoMap.mk [])] }

/-- The state `extraLoaded` with `xx` as the active language. -/
def extraActive : Localization :=
  { extraLoaded with currentLanguage := "xx" }

/-- The state `NewLocalizationWithDir` builds on `mixedHost`. -/
def mixedState : Localization where
  currentLanguage := "en"
  supportedLanguages := ["en", "ru"]
  translations := GoMap.mk
    [("en", GoMap.mk [("hello", "Hello"), ("bye", "Goodbye")]),
     ("ru", Localization.getDefaultTranslations "ru")]
  translationsDir := "locale"
  useEmbedded := false

/-- A disk on which every request succeeds. -/
def plainDisk : Disk where
  dirOf := fun _ => "out"
  mkdirAll := fun _ => true
  writeFile := fun _ _ => true

/-- A host whose file `out/en.json` holds what `json.MarshalIndent` writes for
the built-in English set. -/
def savedHost : Host :=
  { bareHost with
    readFile := fun path =>
      if path = "out/en.json" then
        some (MarshalIndent (Localization.getDefaultTranslations "en"))
      else none }

/-- A state whose table for `en` is empty. -/
def emptyEnglish : Localization :=
  { englishOnly with translations := GoMap.mk [("en", GoMap.make)] }

/-- A host whose directory `locale` holds the one file `translations_en.json`,
an object with a `null` member and a string member. -/
def nullMemberHost : Host :=
  { bareHost with
    readDir := fun dir =>
      if dir = "locale" then some [{ name := "translations_en.json", isDir := false }] else none
    readFile := fun path =>
      if path = "locale/translations_en.json" then
        some (FileData.json (Json.obj [("a", Json.null), ("b", Json.str "B")]))
      else none }

/-- The state `NewLocalizationWithDir` builds on `nullFileHost`: the table of
`en` is empty. -/
def nullFileState : Localization :=
  { englishOnly with translations := GoMap.mk [("en", GoMap.mk [])] }

/-- The state `NewLocalizationWithDir` builds on `nullMemberHost`. -/
def nullMemberState : Localization :=
  { englishOnly with translations := GoMap.mk [("en", GoMap.mk [("a", ""), ("b", "B")])] }

/-- The calls `LoadTranslationsFromFile("yy", "missing.json")`, which fails on
`extraHost`, then `LoadTranslationsFromFile("xx", "extra.json")` and
`SetLanguage("xx")`. -/
def failingThenSwitchCalls : List Call :=
  [Call.load extraHost "yy" "missing.json", Call.load extraHost "xx" "extra.json",
    Call.setLanguage "xx"]

/-! # Theorems -/

open Localization

/-! ## The file-name pattern -/

theorem isLanguageCode_iff (cs : List Char) :
    isLanguageCode cs = true ↔ MatchesCodePattern (String.mk cs) := by
  constructor
  · intro hc
    unfold isLanguageCode at hc
    split at hc
    · rename_i a b
      simp only [Bool.and_eq_true] at hc
      exact ⟨a, b, hc.1, hc.2, Or.inl rfl⟩
    · rename_i a b c d
      simp only [Bool.and_eq_true] at hc
      exact ⟨a, b, hc.1.1.1, hc.1.1.2, Or.inr ⟨c, d, hc.1.2, hc.2, rfl⟩⟩
    · exact absurd hc (by simp)
  · rintro ⟨a, b, ha, hb, h2 | ⟨c, d, hc, hd, h5⟩⟩
    · have : cs = [a, b] := by simpa using congrArg String.data h2
      subst this
      simp [isLanguageCode, ha, hb]
    · have : cs = [a, b, '-', c, d] := by simpa using congrArg String.data h5
      subst this
      simp [isLanguageCode, ha, hb, hc, hd]

theorem lead_tail_split (p s cs : List Char) :
    (p.isPrefixOf cs && s.isSuffixOf (cs.drop p.length)) = true ↔
      cs = p ++ (cs.drop p.length).take (cs.length - p.length - s.length) ++ s := by
  constructor
  · intro hps
    simp only [Bool.and_eq_true, List.isPrefixOf_iff_prefix, List.isSuffixOf_iff_suffix] at hps
    obtain ⟨⟨t, ht⟩, ⟨m, hm⟩⟩ := hps
    subst ht
    simp only [List.drop_left] at hm ⊢
    subst hm
    simp
  · intro hcs
    simp only [Bool.and_eq_true, List.isPrefixOf_iff_prefix, List.isSuffixOf_iff_suffix]
    constructor
    · exact ⟨_, by rw [List.append_assoc] at hcs; exact hcs.symm⟩
    · refine ⟨(cs.drop p.length).take (cs.length - p.length - s.length), ?_⟩
      conv_rhs => rw [hcs]
      simp [List.append_assoc]

/-- The capture of the anchored pattern is `code` exactly when the name is
the literal lead, then a text matching the code pattern, then `.json`. -/
theorem findLanguageCode_iff (lead name code : String) :
    findLanguageCode lead name = some code ↔
      MatchesCodePattern code ∧ name = lead ++ code ++ ".json" := by
  unfold findLanguageCode
  simp only
  constructor
  · intro hf
    split at hf
    · rename_i hps
      split at hf
      · rename_i hcode
        have hc : String.mk ((name.toList.drop lead.toList.length).take
            (name.toList.length - lead.toList.length - ".json".toList.length)) = code := by
          simpa using hf
        rw [lead_tail_split] at hps
        refine ⟨hc ▸ (isLanguageCode_iff _).1 hcode, ?_⟩
        apply String.ext
        rw [← hc]
        simpa [String.data_append] using hps
      · exact absurd hf (by simp)
    · exact absurd hf (by simp)
  · rintro ⟨hpat, hname⟩
    have hdata : name.toList = lead.toList ++ code.toList ++ ".json".toList := by
      rw [hname]; simp [String.data_append]
    have htake : (name.toList.drop lead.toList.length).take
        (name.toList.length - lead.toList.length - ".json".toList.length) = code.toList := by
      rw [hdata]
      simp [List.append_assoc]
    have hps : (lead.toList.isPrefixOf name.toList &&
        ".json".toList.isSuffixOf (name.toList.drop lead.toList.length)) = true := by
      rw [lead_tail_split, htake, hdata]
    rw [if_pos hps, htake]
    have hcode : isLanguageCode code.data = true :=
      (isLanguageCode_iff _).2 (by simpa using hpat)
    simp [hcode]

/-! ## Go maps -/

theorem lookup_storeEntries {β : Type} (k k' : String) (v : β) (es : List (String × β)) :
    List.lookup k' (GoMap.storeEntries k v es) = if k' = k then some v else List.lookup k' es := by
  induction es with
  | nil =>
    by_cases hk : k' = k
    · have hb : (k' == k) = true := by simp [hk]
      simp [GoMap.storeEntries, List.lookup, hk]
    · have hb : (k' == k) = false := by simp [hk]
      simp [GoMap.storeEntries, List.lookup, hk, hb]
  | cons e rest ih =>
    obtain ⟨k1, v1⟩ := e
    by_cases h1 : k1 = k
    · by_cases hk : k' = k
      · simp [GoMap.storeEntries, List.lookup, h1, hk]
      · have hb : (k' == k) = false := by simp [hk]
        simp [GoMap.storeEntries, List.lookup, h1, hk, hb]
    · by_cases hk : k' = k
      · subst hk
        have hb : (k' == k1) = false := by simp; exact fun h => h1 h.symm
        simp [GoMap.storeEntries, List.lookup, h1, hb, ih]
      · by_cases h2 : k' = k1
        · simp [GoMap.storeEntries, List.lookup, h1, hk, h2]
        · have hb : (k' == k1) = false := by simp [h2]
          simp [GoMap.storeEntries, List.lookup, h1, hk, hb, ih]

/-! ## The scanning loop -/

theorem appendNew_eq (codes langs : List String) :
    appendNew langs codes = langs ++ (firstOccurrences codes).filter fun y => !decide (y ∈ langs) := by
  induction codes generalizing langs with
  | nil => simp [appendNew, firstOccurrences]
  | cons c cs ih =>
    by_cases hc : c ∈ langs
    · simp only [appendNew, if_pos hc, firstOccurrences, ih]
      congr 1
      rw [List.filter_cons_of_neg (by simp [hc]), List.filter_filter]
      apply List.filter_congr
      intro y _
      by_cases hy : y ∈ langs
      · simp [hy]
      · have : y ≠ c := fun h => hy (h ▸ hc)
        simp [hy, this]
    · simp only [appendNew, if_neg hc, firstOccurrences, ih]
      rw [List.filter_cons_of_pos (by simp [hc]), List.filter_filter, List.append_assoc]
      congr 1
      simp only [List.singleton_append]
      congr 1
      apply List.filter_congr
      intro y _
      by_cases hy : y ∈ langs
      · simp [hy]
      · by_cases hyc : y = c
        · simp [hyc]
        · simp [hy, hyc]

theorem appendNew_nil (codes : List String) : appendNew [] codes = firstOccurrences codes := by
  rw [appendNew_eq]; simp

theorem scanStep_tracks (lead : String) (acc : List (String × Bool) × List String)
    (isDir : Bool) (name : String) (hacc : SetTracks acc) :
    SetTracks (scanStep lead acc isDir name) ∧
      (scanStep lead acc isDir name).2 =
        appendNew acc.2 (if isDir then [] else (findLanguageCode lead name).toList) := by
  unfold scanStep
  cases isDir with
  | true => simp [appendNew, hacc]
  | false =>
    cases hf : findLanguageCode lead name with
    | none => simp [appendNew, hacc]
    | some code =>
      have hcode := hacc code
      by_cases hmem : code ∈ acc.2
      · simp only [hmem, decide_True] at hcode
        simp [hcode, appendNew, hmem, hacc]
      · simp only [hmem, decide_False] at hcode
        simp only [hcode, Bool.not_false, if_true, Bool.false_eq_true, if_false,
          Option.toList, appendNew, if_neg hmem]
        refine ⟨?_, trivial⟩
        intro c
        simp only [lookup_storeEntries]
        by_cases hc : c = code
        · simp [hc]
        · have := hacc c
          simp [hc, this]

theorem appendNew_append (langs xs ys : List String) :
    appendNew langs (xs ++ ys) = appendNew (appendNew langs xs) ys := by
  induction xs generalizing langs with
  | nil => simp [appendNew]
  | cons c cs ih =>
    by_cases hc : c ∈ langs
    · simp [appendNew, hc, ih]
    · simp [appendNew, hc, ih]

theorem scan_foldl (lead : String) {α : Type} (isDir : α → Bool) (name : α → String)
    (files : List α) (acc : List (String × Bool) × List String) (hacc : SetTracks acc) :
    (files.foldl (fun a f => scanStep lead a (isDir f) (name f)) acc).2 =
      appendNew acc.2 ((files.filter fun f => !isDir f).filterMap fun f =>
        findLanguageCode lead (name f)) := by
  induction files generalizing acc with
  | nil => simp [appendNew]
  | cons f rest ih =>
    obtain ⟨htr, hstep⟩ := scanStep_tracks lead acc (isDir f) (name f) hacc
    rw [List.foldl_cons, ih _ htr, hstep]
    cases hd : isDir f with
    | true => simp [hd, appendNew]
    | false =>
      cases hf : findLanguageCode lead (name f) with
      | none => simp [hd, hf, appendNew]
      | some code =>
        simp only [hd, Bool.false_eq_true, if_false, Option.toList, Bool.not_false,
          List.filter_cons_of_pos, List.filterMap_cons, hf]
        rw [← appendNew_append]
        rfl

theorem scanFiles_eq (files : List DirEntry) :
    (scanFiles files).2 = firstOccurrences
      ((files.filter fun e => !e.isDir).filterMap fun e =>
        findLanguageCode "translations_" e.name) := by
  unfold scanFiles
  rw [scan_foldl "translations_" DirEntry.isDir DirEntry.name files ([], []) (by intro c; simp),
    appendNew_nil]

/-! ## Formatting and first occurrences -/

theorem sprintf_server_started (h : Host) (p : Int) :
    Sprintf h "Server started on port %d" [Arg.int p] = "Server started on port " ++ toString p := by
  have hp : plainDirectives "Server started on port %d".toList = true := by decide
  unfold Sprintf
  rw [if_pos hp]
  apply String.ext
  simp [sprintfLoop, formatVerb, extraArgs, String.singleton]

theorem firstOccurrences_mem (xs : List String) (c : String) :
    c ∈ firstOccurrences xs ↔ c ∈ xs := by
  induction xs with
  | nil => simp [firstOccurrences]
  | cons x rest ih =>
    simp only [firstOccurrences, List.mem_cons, List.mem_filter, ih]
    by_cases hc : c = x
    · simp [hc]
    · simp [hc]

theorem firstOccurrences_nodup (xs : List String) : (firstOccurrences xs).Nodup := by
  induction xs with
  | nil => simp [firstOccurrences]
  | cons x rest ih =>
    simp only [firstOccurrences, List.nodup_cons, List.mem_filter]
    exact ⟨by simp, ih.filter _⟩

/-! ## Key resolution and language switching -/

/-- C1. `Get` is a total function (no operation in it can panic: it only reads
maps, which is allowed on nil maps, and indexes `supportedLanguages` under a
length guard), and when the key is not in the table `Get` selects, it returns
the key unchanged, whatever the arguments. -/
theorem Get_absent_key_returns_key (h : Host) (l : Localization) (key : String)
    (args : List Arg) (habsent : (selectTable l).lookup key = none) :
    Get h l key args = key := by
  simp [Get, habsent]

theorem Get_absent_key_returns_key_witness :
    (selectTable englishOnly).lookup "totally_unknown_key" = none ∧
      Get bareHost englishOnly "totally_unknown_key" [] = "totally_unknown_key" :=
  ⟨by decide, Get_absent_key_returns_key bareHost englishOnly "totally_unknown_key" [] (by decide)⟩

/-- C2. `SetLanguage(code)` returns the unsupported-language error and leaves
the whole state unchanged when the store has no entry for `code`; otherwise it
returns no error and a following `GetLanguage` returns `code`. -/
theorem SetLanguage_rejects_or_switches (l : Localization) (code : String) :
    (l.translations.lookup code = none →
      (SetLanguage l code).2 = some (GoError.unsupportedLanguage code) ∧
        (SetLanguage l code).1 = l) ∧
    (l.translations.lookup code ≠ none →
      (SetLanguage l code).2 = none ∧ GetLanguage (SetLanguage l code).1 = code) := by
  constructor
  · intro hc
    simp [SetLanguage, hc]
  · intro hc
    cases hlk : l.translations.lookup code with
    | none => exact absurd hlk hc
    | some t => simp [SetLanguage, GetLanguage, hlk]

theorem SetLanguage_rejects_or_switches_witness :
    ((SetLanguage englishOnly "xx").2 = some (GoError.unsupportedLanguage "xx") ∧
        (SetLanguage englishOnly "xx").1 = englishOnly) ∧
      ((SetLanguage { englishOnly with currentLanguage := "ru" } "en").2 = none ∧
        GetLanguage (SetLanguage { englishOnly with currentLanguage := "ru" } "en").1 = "en") :=
  ⟨(SetLanguage_rejects_or_switches englishOnly "xx").1 (by decide),
    (SetLanguage_rejects_or_switches { englishOnly with currentLanguage := "ru" } "en").2
      (by decide)⟩

/-- C3. For a key present in the selected table, `Get` with no arguments
returns the stored template as stored, whatever the template contains (no
formatting is applied). -/
theorem Get_without_args_returns_template (h : Host) (l : Localization)
    (key template : String) (hfound : (selectTable l).lookup key = some template) :
    Get h l key [] = template := by
  simp [Get, hfound]

theorem Get_without_args_returns_template_witness :
    (selectTable englishOnly).lookup "server_started" = some "Server started on port %d" ∧
      Get bareHost englishOnly "server_started" [] = "Server started on port %d" :=
  ⟨by decide, Get_without_args_returns_template bareHost englishOnly "server_started"
    "Server started on port %d" (by decide)⟩

/-- C4. When the table of the active language is the built-in English set,
`Get("server_started", p)` is `Server started on port ` followed by the decimal
representation of the integer `p`. -/
theorem Get_server_started_english (h : Host) (l : Localization) (p : Int)
    (henglish : l.translations.lookup l.currentLanguage = some (getDefaultTranslations "en")) :
    Get h l "server_started" [Arg.int p] = "Server started on port " ++ toString p := by
  have hsel : selectTable l = getDefaultTranslations "en" := by
    simp [selectTable, henglish]
  have hlk : (getDefaultTranslations "en").lookup "server_started"
      = some "Server started on port %d" := by decide
  simp [Get, hsel, hlk, sprintf_server_started]

theorem Get_server_started_english_witness :
    englishOnly.translations.lookup englishOnly.currentLanguage
        = some (getDefaultTranslations "en") ∧
      Get bareHost englishOnly "server_started" [Arg.int 8080] = "Server started on port 8080" :=
  ⟨by decide, Get_server_started_english bareHost englishOnly 8080 (by decide)⟩

/-! ## The catalogue -/

theorem isTranslationFileName_iff (name code : String) :
    IsTranslationFileName name code ↔ findLanguageCode "translations_" name = some code := by
  rw [findLanguageCode_iff]; rfl

theorem scan_supported_eq (h : Host) (l : Localization) :
    (scanAvailableLanguages h l).supportedLanguages =
      match h.readDir l.translationsDir with
      | none => [DefaultLanguage]
      | some files => if (scanFiles files).2 = [] then [DefaultLanguage] else (scanFiles files).2 := by
  unfold scanAvailableLanguages
  cases h.readDir l.translationsDir with
  | none => rfl
  | some files =>
    simp only [List.length_eq_zero]
    split <;> rfl

/-- C5. The catalogue `scanAvailableLanguages` produces is never empty, and
it is exactly `["en"]` when the directory cannot be read and when no
non-directory entry of the listing has a name of the form
`translations_<code>.json` with `<code>` matching the pattern. -/
theorem scanAvailableLanguages_never_empty (h : Host) (l : Localization) :
    (scanAvailableLanguages h l).supportedLanguages ≠ [] ∧
    (h.readDir l.translationsDir = none →
      (scanAvailableLanguages h l).supportedLanguages = ["en"]) ∧
    (∀ files, h.readDir l.translationsDir = some files →
      (∀ e ∈ files, e.isDir = false → ∀ code, ¬ IsTranslationFileName e.name code) →
      (scanAvailableLanguages h l).supportedLanguages = ["en"]) := by
  rw [scan_supported_eq]
  refine ⟨?_, ?_, ?_⟩
  · cases h.readDir l.translationsDir with
    | none => simp
    | some files =>
      simp only
      split
      · simp
      · assumption
  · intro hnone
    rw [hnone]; rfl
  · intro files hsome hno
    rw [hsome]
    have hcodes : ((files.filter fun e => !e.isDir).filterMap fun e =>
        findLanguageCode "translations_" e.name) = [] := by
      rw [List.filterMap_eq_nil_iff]
      intro e he
      rw [List.mem_filter] at he
      cases hf : findLanguageCode "translations_" e.name with
      | none => rfl
      | some code =>
        exact absurd ((isTranslationFileName_iff _ _).2 hf) (hno e he.1 (by simpa using he.2) code)
    have hscan : (scanFiles files).2 = [] := by
      rw [scanFiles_eq, hcodes]; rfl
    simp only [hscan, if_true]
    rfl

theorem scanAvailableLanguages_never_empty_witness :
    (scanAvailableLanguages bareHost freshLocale).supportedLanguages = ["en"] ∧
    (scanAvailableLanguages strayHost freshLocale).supportedLanguages = ["en"] :=
  ⟨(scanAvailableLanguages_never_empty bareHost freshLocale).2.1 (by decide),
   (scanAvailableLanguages_never_empty strayHost freshLocale).2.2 _ rfl (by
      intro e he hdir code hcode
      rw [isTranslationFileName_iff] at hcode
      simp only [List.mem_cons, List.mem_singleton, List.not_mem_nil, or_false] at he
      rcases he with rfl | rfl | rfl
      · have hnone : findLanguageCode "translations_" "README.md" = none := by decide
        rw [hnone] at hcode
        exact Option.noConfusion hcode
      · have hnone : findLanguageCode "translations_" "translations_eng.json" = none := by
          decide
        rw [hnone] at hcode
        exact Option.noConfusion hcode
      · exact Bool.noConfusion hdir)⟩

/-- C6. For a readable listing with at least one translation file, the
catalogue is exactly the codes of the non-directory entries named
`translations_<code>.json` with `<code>` matching the pattern, in listing
order, each code once at its first occurrence, and nothing else.  Here `codeOf`
is any reading of the code off a file name that follows the naming
convention. -/
theorem scanAvailableLanguages_lists_codes (h : Host) (l : Localization)
    (files : List DirEntry) (codeOf : String → Option String)
    (hcodeOf : ∀ name code, codeOf name = some code ↔ IsTranslationFileName name code)
    (hread : h.readDir l.translationsDir = some files)
    (hsome : ∃ e ∈ files, e.isDir = false ∧ ∃ code, IsTranslationFileName e.name code) :
    (scanAvailableLanguages h l).supportedLanguages =
      firstOccurrences ((files.filter fun e => !e.isDir).filterMap fun e => codeOf e.name) := by
  have hfun : codeOf = findLanguageCode "translations_" := by
    funext name
    apply Option.ext
    intro code
    simp only [Option.mem_def]
    rw [hcodeOf, isTranslationFileName_iff]
  subst hfun
  rw [scan_supported_eq, hread]
  simp only
  rw [scanFiles_eq]
  obtain ⟨e, he, hdir, code, hcode⟩ := hsome
  have hmem : code ∈ firstOccurrences ((files.filter fun e => !e.isDir).filterMap fun e =>
      findLanguageCode "translations_" e.name) := by
    rw [firstOccurrences_mem, List.mem_filterMap]
    exact ⟨e, List.mem_filter.2 ⟨he, by simp [hdir]⟩, (isTranslationFileName_iff _ _).1 hcode⟩
  rw [if_neg (List.ne_nil_of_mem hmem)]

theorem scanAvailableLanguages_lists_codes_witness :
    russianHost.readDir freshLocale.translationsDir
        = some [{ name := "translations_ru.json", isDir := false }] ∧
      (scanAvailableLanguages russianHost freshLocale).supportedLanguages = ["ru"] :=
  ⟨rfl, (scanAvailableLanguages_lists_codes russianHost freshLocale
    [{ name := "translations_ru.json", isDir := false }] (findLanguageCode "translations_")
    (fun name code => (isTranslationFileName_iff name code).symm) rfl
    ⟨_, List.mem_singleton.2 rfl, rfl, "ru",
      (isTranslationFileName_iff _ _).2 (by decide)⟩).trans (by decide)⟩

/-! ## Detection of the system language -/

theorem find_none_iff_any (supported : List String) (p : String → Bool) :
    supported.find? p = none ↔ supported.any p = false := by
  simp [List.find?_eq_none, List.any_eq_false]

theorem detectFromEnv_eq (h : Host) (supported vars : List String) :
    detectFromEnv h supported vars =
      ((vars.find? fun v => h.getenv v != "" &&
          supported.any fun s => HasPrefix s (candidate h (h.getenv v))).bind fun v =>
        supported.find? fun s => HasPrefix s (candidate h (h.getenv v))) := by
  induction vars with
  | nil => rfl
  | cons v rest ih =>
    unfold detectFromEnv
    by_cases hv : h.getenv v = ""
    · simp [hv, ih]
    · simp only [ne_eq, hv, not_false_eq_true, if_true]
      cases hf : supported.find? (fun s => HasPrefix s (ToLower h (beforeUnderscore (h.getenv v)))) with
      | none =>
        have hany := (find_none_iff_any _ _).1 hf
        simp only [List.find?_cons, candidate, hany, Bool.and_false]
        exact ih
      | some s =>
        have hany : supported.any (fun s => HasPrefix s (ToLower h (beforeUnderscore (h.getenv v)))) = true := by
          cases hb : supported.any (fun s => HasPrefix s (ToLower h (beforeUnderscore (h.getenv v)))) with
          | true => rfl
          | false => rw [(find_none_iff_any _ _).2 hb] at hf; exact Option.noConfusion hf
        have hne : (h.getenv v != "") = true := by simp [hv]
        simp only [List.find?_cons, candidate, hany, hne, Bool.and_true, Option.bind, hf]

/-- C7. With the candidate of a value being its lower-cased text before
the first underscore: if `v` is the first variable, in the order `LANG`,
`LC_ALL`, `LC_MESSAGES`, `LANGUAGE`, whose value is not empty and whose
candidate is the beginning of some supported code, then
`detectSystemLanguage` returns the first supported code, in catalogue order,
that starts with the candidate of `v`. -/
theorem detect_first_matching_variable (h : Host) (l : Localization)
    (earlier later : List String) (v : String)
    (horder : localeVariables = earlier ++ v :: later)
    (hvalue : h.getenv v ≠ "")
    (hmatch : ∃ s ∈ l.supportedLanguages, HasPrefix s (candidate h (h.getenv v)) = true)
    (hfirst : ∀ w ∈ earlier, h.getenv w = "" ∨
      ∀ s ∈ l.supportedLanguages, HasPrefix s (candidate h (h.getenv w)) = false) :
    l.supportedLanguages.find? (fun s => HasPrefix s (candidate h (h.getenv v)))
      = some (detectSystemLanguage h l) := by
  have hfind : (localeVariables.find? fun w => h.getenv w != "" &&
      l.supportedLanguages.any fun s => HasPrefix s (candidate h (h.getenv w))) = some v := by
    rw [horder, List.find?_append]
    have hnone : (earlier.find? fun w => h.getenv w != "" &&
        l.supportedLanguages.any fun s => HasPrefix s (candidate h (h.getenv w))) = none := by
      rw [List.find?_eq_none]
      intro w hw
      rcases hfirst w hw with he | hno
      · simp [he]
      · simp only [Bool.and_eq_true, not_and, Bool.not_eq_true, List.any_eq_false]
        intro _ s hs
        simpa using hno s hs
    rw [hnone]
    obtain ⟨s, hs, hp⟩ := hmatch
    have hany : (l.supportedLanguages.any fun s => HasPrefix s (candidate h (h.getenv v))) = true :=
      List.any_eq_true.2 ⟨s, hs, hp⟩
    simp [List.find?_cons, hvalue, hany]
  obtain ⟨s, hs, hp⟩ := hmatch
  cases hf : l.supportedLanguages.find? (fun s => HasPrefix s (candidate h (h.getenv v))) with
  | none =>
    rw [List.find?_eq_none] at hf
    exact absurd hp (hf s hs)
  | some t =>
    unfold detectSystemLanguage
    rw [detectFromEnv_eq, hfind]
    simp [Option.bind, hf]

theorem detect_first_matching_variable_witness :
    langHost.getenv "LANG" = "ru_RU.UTF-8" ∧ twoLanguages.supportedLanguages = ["en", "ru"] ∧
      detectSystemLanguage langHost twoLanguages = "ru" :=
  ⟨rfl, rfl, Option.some.inj
    ((detect_first_matching_variable langHost twoLanguages []
      ["LC_ALL", "LC_MESSAGES", "LANGUAGE"] "LANG" rfl (by decide)
      ⟨"ru", by decide, by decide⟩ (by intro w hw; cases hw)).symm.trans (by decide))⟩

theorem bind_map_pair {α β γ : Type} (o : Option α) (f : α → β) (g : β → Option γ) :
    (o.map f).bind g = o.bind fun a => g (f a) := by
  cases o <;> rfl

/-- C8, as stated, fails.  Two Linux environments have the same first
non-empty variable with the same value, `LANG=xx_XX`, which matches no code of
the catalogue `["en", "ru"]`; the one without further variables gives `en`, the
one that also sets `LC_ALL=ru_RU.UTF-8` gives `ru`: the later variable is
consulted. -/
theorem first_non_empty_variable_does_not_decide :
    firstNonEmptyVariable unmatchedHost.getenv = some ("LANG", "xx_XX") ∧
    firstNonEmptyVariable laterVariableHost.getenv = some ("LANG", "xx_XX") ∧
    unmatchedHost.goos = laterVariableHost.goos ∧
    detectSystemLanguage unmatchedHost twoLanguages = "en" ∧
    detectSystemLanguage laterVariableHost twoLanguages = "ru" := by
  decide

/-- C8, amended.  The first variable, in the order `LANG`, `LC_ALL`,
`LC_MESSAGES`, `LANGUAGE`, whose value is not empty and whose candidate is the
beginning of a supported code wins: two environments on one host with the same
first such variable and value (or with none) give the same result of
`detectSystemLanguage`, whatever the other variables hold. -/
theorem first_matching_variable_decides (h : Host) (envA envB : String → String)
    (l : Localization)
    (hsame : firstMatchingVariable h envA l.supportedLanguages
      = firstMatchingVariable h envB l.supportedLanguages) :
    detectSystemLanguage { h with getenv := envA } l
      = detectSystemLanguage { h with getenv := envB } l := by
  have key : ∀ env : String → String,
      detectFromEnv { h with getenv := env } l.supportedLanguages localeVariables =
        (firstMatchingVariable h env l.supportedLanguages).bind fun p =>
          l.supportedLanguages.find? fun s => HasPrefix s (candidate h p.2) := by
    intro env
    rw [detectFromEnv_eq]
    unfold firstMatchingVariable
    exact (bind_map_pair
      (localeVariables.find? fun v => env v != "" &&
        l.supportedLanguages.any fun s => HasPrefix s (candidate h (env v)))
      (fun v => (v, env v))
      (fun p => l.supportedLanguages.find? fun s => HasPrefix s (candidate h p.2))).symm
  unfold detectSystemLanguage
  rw [key envA, key envB, hsame]

theorem first_matching_variable_decides_witness :
    firstMatchingVariable bareHost laterVariableHost.getenv twoLanguages.supportedLanguages
        = firstMatchingVariable bareHost lcAllHost.getenv twoLanguages.supportedLanguages ∧
      detectSystemLanguage laterVariableHost twoLanguages
        = detectSystemLanguage lcAllHost twoLanguages :=
  ⟨by decide,
    first_matching_variable_decides bareHost laterVariableHost.getenv lcAllHost.getenv
      twoLanguages (by decide)⟩

/-- C9. When none of the four locale variables is set to a non-empty value:
off Windows `detectSystemLanguage` returns the first entry of the catalogue;
on Windows it returns `en` when `en` is in the catalogue and the first entry
otherwise; with an empty catalogue it returns `en`. -/
theorem detect_without_environment (h : Host) (l : Localization)
    (hempty : ∀ v ∈ localeVariables, h.getenv v = "") :
    (h.goos ≠ "windows" → ∀ first rest, l.supportedLanguages = first :: rest →
      detectSystemLanguage h l = first) ∧
    (h.goos = "windows" → "en" ∈ l.supportedLanguages → detectSystemLanguage h l = "en") ∧
    (h.goos = "windows" → "en" ∉ l.supportedLanguages →
      ∀ first rest, l.supportedLanguages = first :: rest → detectSystemLanguage h l = first) ∧
    (l.supportedLanguages = [] → detectSystemLanguage h l = "en") := by
  have hnone : detectFromEnv h l.supportedLanguages localeVariables = none := by
    rw [detectFromEnv_eq]
    have : (localeVariables.find? fun v => h.getenv v != "" &&
        l.supportedLanguages.any fun s => HasPrefix s (candidate h (h.getenv v))) = none := by
      rw [List.find?_eq_none]
      intro v hv
      simp [hempty v hv]
    rw [this]; rfl
  unfold detectSystemLanguage
  rw [hnone]
  refine ⟨?_, ?_, ?_, ?_⟩
  · intro hos first rest hl
    simp [hos, hl]
  · intro hos hen
    have : l.supportedLanguages.any (fun s => s == DefaultLanguage) = true := by
      rw [List.any_eq_true]; exact ⟨"en", hen, by decide⟩
    rw [this]
    simp only [hos, decide_True, Bool.and_self, if_true]
    rfl
  · intro hos hen first rest hl
    have : l.supportedLanguages.any (fun s => s == DefaultLanguage) = false := by
      rw [List.any_eq_false]
      intro s hs hsd
      have : s = "en" := by simpa [DefaultLanguage] using hsd
      exact hen (this ▸ hs)
    rw [this]
    simp only [Bool.and_false, Bool.false_eq_true, if_false, hl]
  · intro hl
    simp [hl, DefaultLanguage]

theorem detect_without_environment_witness :
    detectSystemLanguage bareHost { freshLocale with supportedLanguages := ["fr", "de"] } = "fr" ∧
    detectSystemLanguage windowsHost
      { freshLocale with supportedLanguages := ["fr", "en"] } = "en" ∧
    detectSystemLanguage windowsHost
      { freshLocale with supportedLanguages := ["fr", "de"] } = "fr" ∧
    detectSystemLanguage bareHost freshLocale = "en" :=
  ⟨(detect_without_environment bareHost { freshLocale with supportedLanguages := ["fr", "de"] }
      (fun _ _ => rfl)).1 (by decide) "fr" ["de"] rfl,
   (detect_without_environment windowsHost
      { freshLocale with supportedLanguages := ["fr", "en"] } (fun _ _ => rfl)).2.1 rfl
      (by decide),
   (detect_without_environment windowsHost
      { freshLocale with supportedLanguages := ["fr", "de"] } (fun _ _ => rfl)).2.2.1 rfl
      (by decide) "fr" ["de"] rfl,
   (detect_without_environment bareHost freshLocale (fun _ _ => rfl)).2.2.2 rfl⟩

/-! ## Loading and initialization -/

theorem GoMap.isNil_eq_false {β : Type} (m : GoMap β) :
    m.isNil = false ↔ ∃ es, m = GoMap.mk es := by
  cases m with
  | nil => simp [GoMap.isNil]
  | mk es => simp [GoMap.isNil]

theorem GoMap.store_of_made {β : Type} (m : GoMap β) (k : String) (v : β)
    (hm : m.isNil = false) :
    ∃ m', m.store k v = some m' ∧ m'.isNil = false ∧
      ∀ k', m'.lookup k' = if k' = k then some v else m.lookup k' := by
  obtain ⟨es, rfl⟩ := (GoMap.isNil_eq_false m).1 hm
  refine ⟨GoMap.mk (GoMap.storeEntries k v es), rfl, rfl, ?_⟩
  intro k'
  exact lookup_storeEntries k k' v es

theorem mergeEntries_made (language : String) (entries : List (String × String))
    (store : GoMap (GoMap String)) (t : GoMap String)
    (hstore : store.isNil = false) (ht : store.lookup language = some t)
    (htn : t.isNil = false) :
    ∃ store', mergeEntries language entries store = some store' ∧ store'.isNil = false ∧
      store'.lookup language = some (GoMap.mk
        (entries.foldl (fun es e => GoMap.storeEntries e.1 e.2 es) t.entries)) ∧
      ∀ k, k ≠ language → store'.lookup k = store.lookup k := by
  induction entries generalizing store t with
  | nil =>
    obtain ⟨es, rfl⟩ := (GoMap.isNil_eq_false t).1 htn
    exact ⟨store, rfl, hstore, ht, fun _ _ => rfl⟩
  | cons e rest ih =>
    obtain ⟨key, value⟩ := e
    obtain ⟨es, rfl⟩ := (GoMap.isNil_eq_false t).1 htn
    obtain ⟨store1, hs1, hn1, hl1⟩ :=
      GoMap.store_of_made store language (GoMap.mk (GoMap.storeEntries key value es)) hstore
    have hlang : store1.lookup language = some (GoMap.mk (GoMap.storeEntries key value es)) := by
      rw [hl1]; simp
    obtain ⟨store', hm, hn', hl', hother⟩ := ih store1 _ hn1 hlang rfl
    refine ⟨store', ?_, hn', hl', ?_⟩
    · have hin : (GoMap.mk es).store key value
          = some (GoMap.mk (GoMap.storeEntries key value es)) := rfl
      unfold mergeEntries
      rw [ht]
      simp only [Option.getD_some]
      rw [hin]
      simp only
      rw [hs1]
      exact hm
    · intro k hk
      rw [hother k hk, hl1, if_neg hk]


/-- The effect of `LoadTranslationsFromFile` on a state whose store is a made
map: it never panics; on an error the state is unchanged; without error only
the store changes, it stays a made map, the table of `language` becomes the old
entries (none when the language had no table or a nil one) overridden by the
decoded ones, and the other tables are kept. -/
theorem LoadTranslationsFromFile_made (h : Host) (l : Localization)
    (language filePath : String) (hstore : l.translations.isNil = false) :
    (∃ err, LoadTranslationsFromFile h l language filePath = some (l, some err) ∧
      (h.readFile filePath = none ∨
        ∃ data, h.readFile filePath = some data ∧ Unmarshal data = Except.error err)) ∨
    (∃ store' decoded, LoadTranslationsFromFile h l language filePath
        = some ({ l with translations := store' }, none) ∧
      store'.isNil = false ∧
      (∃ data, h.readFile filePath = some data ∧ Unmarshal data = Except.ok decoded) ∧
      store'.lookup language = some (GoMap.mk
        (decoded.entries.foldl (fun es e => GoMap.storeEntries e.1 e.2 es)
          ((l.translations.lookup language).getD GoMap.nil).entries)) ∧
      ∀ k, k ≠ language → store'.lookup k = l.translations.lookup k) := by
  unfold LoadTranslationsFromFile
  cases hread : h.readFile filePath with
  | none => exact Or.inl ⟨_, rfl, Or.inl rfl⟩
  | some data =>
    simp only
    cases hun : Unmarshal data with
    | error err => exact Or.inl ⟨_, rfl, Or.inr ⟨data, rfl, hun⟩⟩
    | ok decoded =>
      right
      simp only
      by_cases hnil : ((l.translations.lookup language).getD GoMap.nil).isNil = true
      · obtain ⟨store1, hs1, hn1, hl1⟩ :=
          GoMap.store_of_made l.translations language GoMap.make hstore
        have hlang : store1.lookup language = some GoMap.make := by rw [hl1]; simp
        obtain ⟨store', hm, hn', hl', hother⟩ :=
          mergeEntries_made language decoded.entries store1 GoMap.make hn1 hlang rfl
        refine ⟨store', decoded, ?_, hn', ⟨data, rfl, hun⟩, ?_, ?_⟩
        · rw [if_pos hnil, hs1]
          simp only
          rw [hm]
        · rw [hl']
          have hent : ((l.translations.lookup language).getD GoMap.nil).entries = [] := by
            cases hg : (l.translations.lookup language).getD GoMap.nil with
            | nil => rfl
            | mk es => rw [hg] at hnil; exact Bool.noConfusion hnil
          rw [hent]; rfl
        · intro k hk
          rw [hother k hk, hl1, if_neg hk]
      · have hnil' : ((l.translations.lookup language).getD GoMap.nil).isNil = false := by
          simpa using hnil
        cases hlk : l.translations.lookup language with
        | none => rw [hlk] at hnil; exact absurd rfl hnil
        | some t =>
          have htn : t.isNil = false := by simpa [hlk] using hnil'
          obtain ⟨store', hm, hn', hl', hother⟩ :=
            mergeEntries_made language decoded.entries l.translations t hstore hlk htn
          refine ⟨store', decoded, ?_, hn', ⟨data, rfl, hun⟩, ?_, hother⟩
          · simp only [Option.getD_some, htn, Bool.false_eq_true, if_false]
            rw [hm]
          · rw [hl']; rfl

theorem mem_of_lookup {β : Type} (k : String) (v : β) (es : List (String × β))
    (hl : List.lookup k es = some v) : (k, v) ∈ es := by
  induction es with
  | nil => exact Option.noConfusion hl
  | cons e rest ih =>
    obtain ⟨k1, v1⟩ := e
    by_cases hk : k = k1
    · subst hk
      simp only [List.lookup, beq_self_eq_true] at hl
      simp [Option.some.inj hl]
    · have hb : (k == k1) = false := by simp [hk]
      simp only [List.lookup, hb] at hl
      exact List.mem_cons_of_mem _ (ih hl)

theorem getDefaultTranslations_made (language : String) :
    (getDefaultTranslations language).isNil = false := by
  unfold getDefaultTranslations
  have hen : builtinTranslations.lookup "en" = some (GoMap.mk [
      ("server_started", "Server started on port %d"),
      ("server_stopped", "Server stopped"),
      ("package_uploaded", "Package uploaded"),
      ("package_not_found", "Package not found"),
      ("invalid_request", "Invalid request"),
      ("internal_error", "Internal server error")]) := by decide
  cases hl : builtinTranslations.lookup language with
  | none => simp only [hen]; rfl
  | some table =>
    simp only
    have hmem : (language, table) ∈ builtinTranslations.entries := by
      unfold GoMap.lookup at hl
      exact mem_of_lookup _ _ _ hl
    simp only [builtinTranslations, GoMap.entries, List.mem_cons, Prod.mk.injEq,
      List.mem_singleton, List.not_mem_nil, or_false] at hmem
    rcases hmem with ⟨_, rfl⟩ | ⟨_, rfl⟩ | ⟨_, rfl⟩ | ⟨_, rfl⟩ <;> rfl

theorem initializeLanguage_made (h : Host) (l : Localization) (language : String)
    (hstore : l.translations.isNil = false) :
    ∃ l', initializeLanguage h l language = some l' ∧
      l'.translations.isNil = false ∧
      l'.currentLanguage = l.currentLanguage ∧
      l'.supportedLanguages = l.supportedLanguages ∧
      l'.translationsDir = l.translationsDir ∧
      l'.useEmbedded = l.useEmbedded ∧
      HasTable l' language ∧
      ∀ k, k ≠ language → l'.translations.lookup k = l.translations.lookup k := by
  obtain ⟨store, hs, hn, hl⟩ := GoMap.store_of_made l.translations language GoMap.make hstore
  unfold initializeLanguage
  rw [hs]
  simp only
  rcases LoadTranslationsFromFile_made h { l with translations := store } language
      (h.joinPath l.translationsDir (Sprintf h "translations_%s.json" [Arg.str language]))
      hn with ⟨err, hload, _⟩ | ⟨store', decoded, hload, hn', _, hl', hother⟩
  · obtain ⟨store2, hs2, hn2, hl2⟩ :=
      GoMap.store_of_made store language (getDefaultTranslations language) hn
    rw [hload]
    simp only
    rw [hs2]
    refine ⟨_, rfl, hn2, rfl, rfl, rfl, rfl, ⟨_, ?_, getDefaultTranslations_made language⟩, ?_⟩
    · simp only; rw [hl2, if_pos rfl]
    · intro k hk
      simp only
      rw [hl2, if_neg hk, hl, if_neg hk]
  · rw [hload]
    refine ⟨_, rfl, hn', rfl, rfl, rfl, rfl, ⟨_, hl', rfl⟩, ?_⟩
    intro k hk
    simp only
    rw [hother k hk, hl, if_neg hk]

theorem initializeLoop_made (h : Host) (languages : List String) (l : Localization)
    (hstore : l.translations.isNil = false) :
    ∃ l', initializeLoop h languages l = some l' ∧
      l'.translations.isNil = false ∧
      l'.currentLanguage = l.currentLanguage ∧
      l'.supportedLanguages = l.supportedLanguages ∧
      l'.translationsDir = l.translationsDir ∧
      l'.useEmbedded = l.useEmbedded ∧
      (∀ c ∈ languages, HasTable l' c) ∧
      (∀ c, HasTable l c → HasTable l' c) ∧
      ∀ k, k ∉ languages → l'.translations.lookup k = l.translations.lookup k := by
  induction languages generalizing l with
  | nil => exact ⟨l, rfl, hstore, rfl, rfl, rfl, rfl, by simp, fun _ hc => hc, fun _ _ => rfl⟩
  | cons language rest ih =>
    obtain ⟨l1, h1, hn1, hc1, hs1, hd1, he1, ht1, ho1⟩ :=
      initializeLanguage_made h l language hstore
    obtain ⟨l2, h2, hn2, hc2, hs2, hd2, he2, ht2, hk2, ho2⟩ := ih l1 hn1
    have hkeep : ∀ c, HasTable l c → HasTable l1 c := by
      intro c hc
      by_cases hcl : c = language
      · rw [hcl]; exact ht1
      · obtain ⟨t, hlt, htn⟩ := hc
        exact ⟨t, by rw [ho1 c hcl]; exact hlt, htn⟩
    refine ⟨l2, ?_, hn2, hc2.trans hc1, hs2.trans hs1, hd2.trans hd1, he2.trans he1, ?_, ?_, ?_⟩
    · simp only [initializeLoop, h1]
      exact h2
    · intro c hc
      rcases List.mem_cons.1 hc with rfl | hr
      · exact hk2 _ ht1
      · exact ht2 c hr
    · intro c hc
      exact hk2 c (hkeep c hc)
    · intro k hk
      rw [List.mem_cons, not_or] at hk
      rw [ho2 k hk.2, ho1 k hk.1]

theorem scanAvailableLanguages_ne_nil (h : Host) (l : Localization) :
    (scanAvailableLanguages h l).supportedLanguages ≠ [] := by
  rw [scan_supported_eq]
  cases h.readDir l.translationsDir with
  | none => simp
  | some files =>
    simp only
    split
    · simp
    · assumption

/-- The constructor `NewLocalizationWithDir` never panics, its catalogue is
not empty, and every code of the catalogue has a table that is not nil. -/
theorem NewLocalizationWithDir_tables (h : Host) (translationsDir : String) :
    ∃ l, NewLocalizationWithDir h translationsDir = some l ∧
      l.supportedLanguages ≠ [] ∧
      ∀ c ∈ l.supportedLanguages, HasTable l c := by
  unfold NewLocalizationWithDir
  simp only
  unfold initializeTranslations
  obtain ⟨l', hl', _, _, hs, _, _, ht, _, _⟩ := initializeLoop_made h
    (scanAvailableLanguages h
      { currentLanguage := "", supportedLanguages := [], translations := GoMap.make,
        translationsDir := translationsDir, useEmbedded := false }).supportedLanguages
    { scanAvailableLanguages h
        { currentLanguage := "", supportedLanguages := [], translations := GoMap.make,
          translationsDir := translationsDir, useEmbedded := false } with
      currentLanguage := detectSystemLanguage h
        (scanAvailableLanguages h
          { currentLanguage := "", supportedLanguages := [], translations := GoMap.make,
            translationsDir := translationsDir, useEmbedded := false }) }
    (by unfold scanAvailableLanguages; simp only; split <;> [rfl; (split <;> rfl)])
  refine ⟨l', hl', ?_, ?_⟩
  · rw [hs]
    exact scanAvailableLanguages_ne_nil h _
  · intro c hc
    rw [hs] at hc
    exact ht c hc

theorem initializeEmbeddedLanguage_made (h : Host) (b : Bundle) (l : Localization)
    (language : String) (hstore : l.translations.isNil = false) :
    ∃ l', initializeEmbeddedLanguage h b l language = some l' ∧
      l'.translations.isNil = false ∧
      l'.currentLanguage = l.currentLanguage ∧
      l'.supportedLanguages = l.supportedLanguages ∧
      l'.translationsDir = l.translationsDir ∧
      l'.useEmbedded = l.useEmbedded ∧
      HasEntry l' language ∧
      ∀ k, k ≠ language → l'.translations.lookup k = l.translations.lookup k := by
  obtain ⟨store, hs, hn, hl⟩ := GoMap.store_of_made l.translations language GoMap.make hstore
  unfold initializeEmbeddedLanguage
  rw [hs]
  simp only
  unfold loadEmbeddedTranslations
  obtain ⟨store2, hs2, hn2, hl2⟩ :=
    GoMap.store_of_made store language (getDefaultTranslations language) hn
  cases hread : b.readFile (Sprintf h "locale/translations_%s.json" [Arg.str language]) with
  | none =>
    simp only
    rw [hs2]
    refine ⟨_, rfl, hn2, rfl, rfl, rfl, rfl, ⟨getDefaultTranslations language, ?_⟩, ?_⟩
    · simp only; rw [hl2, if_pos rfl]
    · intro k hk
      simp only
      rw [hl2, if_neg hk, hl, if_neg hk]
  | some data =>
    simp only
    cases hun : Unmarshal data with
    | error err =>
      simp only
      rw [hs2]
      refine ⟨_, rfl, hn2, rfl, rfl, rfl, rfl, ⟨getDefaultTranslations language, ?_⟩, ?_⟩
      · simp only; rw [hl2, if_pos rfl]
      · intro k hk
        simp only
        rw [hl2, if_neg hk, hl, if_neg hk]
    | ok decoded =>
      simp only
      obtain ⟨store3, hs3, hn3, hl3⟩ := GoMap.store_of_made store language decoded hn
      rw [hs3]
      refine ⟨_, rfl, hn3, rfl, rfl, rfl, rfl, ⟨decoded, ?_⟩, ?_⟩
      · simp only; rw [hl3, if_pos rfl]
      · intro k hk
        simp only
        rw [hl3, if_neg hk, hl, if_neg hk]

theorem initializeEmbeddedLoop_made (h : Host) (b : Bundle) (languages : List String)
    (l : Localization) (hstore : l.translations.isNil = false) :
    ∃ l', initializeEmbeddedLoop h b languages l = some l' ∧
      l'.translations.isNil = false ∧
      l'.currentLanguage = l.currentLanguage ∧
      l'.supportedLanguages = l.supportedLanguages ∧
      l'.translationsDir = l.translationsDir ∧
      l'.useEmbedded = l.useEmbedded ∧
      (∀ c ∈ languages, HasEntry l' c) ∧
      (∀ c, HasEntry l c → HasEntry l' c) ∧
      ∀ k, k ∉ languages → l'.translations.lookup k = l.translations.lookup k := by
  induction languages generalizing l with
  | nil => exact ⟨l, rfl, hstore, rfl, rfl, rfl, rfl, by simp, fun _ hc => hc, fun _ _ => rfl⟩
  | cons language rest ih =>
    obtain ⟨l1, h1, hn1, hc1, hs1, hd1, he1, ht1, ho1⟩ :=
      initializeEmbeddedLanguage_made h b l language hstore
    obtain ⟨l2, h2, hn2, hc2, hs2, hd2, he2, ht2, hk2, ho2⟩ := ih l1 hn1
    have hkeep : ∀ c, HasEntry l c → HasEntry l1 c := by
      intro c hc
      by_cases hcl : c = language
      · rw [hcl]; exact ht1
      · obtain ⟨t, hlt⟩ := hc
        exact ⟨t, by rw [ho1 c hcl]; exact hlt⟩
    refine ⟨l2, ?_, hn2, hc2.trans hc1, hs2.trans hs1, hd2.trans hd1, he2.trans he1, ?_, ?_, ?_⟩
    · simp only [initializeEmbeddedLoop, h1]
      exact h2
    · intro c hc
      rcases List.mem_cons.1 hc with rfl | hr
      · exact hk2 _ ht1
      · exact ht2 c hr
    · intro c hc
      exact hk2 c (hkeep c hc)
    · intro k hk
      rw [List.mem_cons, not_or] at hk
      rw [ho2 k hk.2, ho1 k hk.1]

/-- The constructor `NewEmbeddedLocalization` of the `embed` build never
panics, its catalogue is not empty, and every code of the catalogue has an
entry in the store (whose table may be nil). -/
theorem NewEmbeddedLocalization_entries (h : Host) (b : Bundle) :
    ∃ l, NewEmbeddedLocalization h b = some l ∧
      l.supportedLanguages ≠ [] ∧
      ∀ c ∈ l.supportedLanguages, HasEntry l c := by
  unfold NewEmbeddedLocalization
  simp only
  unfold initializeEmbeddedTranslations
  have hscan : ∀ l0 : Localization, (scanEmbeddedLanguages b l0).translations = l0.translations ∧
      (scanEmbeddedLanguages b l0).supportedLanguages ≠ [] := by
    intro l0
    unfold scanEmbeddedLanguages
    simp only
    split
    · exact ⟨rfl, by simp⟩
    · rename_i hne
      exact ⟨rfl, fun hnil => hne (by
        rw [show (scanWalk b.walk).2 = [] from hnil]; rfl)⟩
  obtain ⟨l', hl', _, _, hs, _, _, ht, _, _⟩ := initializeEmbeddedLoop_made h b
    (scanEmbeddedLanguages b
      { currentLanguage := "", supportedLanguages := [], translations := GoMap.make,
        translationsDir := "", useEmbedded := true }).supportedLanguages
    { scanEmbeddedLanguages b
        { currentLanguage := "", supportedLanguages := [], translations := GoMap.make,
          translationsDir := "", useEmbedded := true } with
      currentLanguage := detectSystemLanguage h
        (scanEmbeddedLanguages b
          { currentLanguage := "", supportedLanguages := [], translations := GoMap.make,
            translationsDir := "", useEmbedded := true }) }
    (by simp only; rw [(hscan _).1]; rfl)
  refine ⟨l', hl', ?_, ?_⟩
  · rw [hs]
    exact (hscan _).2
  · intro c hc
    rw [hs] at hc
    exact ht c hc

/-- C10, the failing input.  In the `embed` build, a bundle whose file
`locale/translations_en.json` holds the JSON text `null` leaves the store with
the nil map as the table of the catalogue's code `en`: `json.Unmarshal` accepts
`null` and leaves `translations` nil, and `loadEmbeddedTranslations` stores it
over the map made by `initializeEmbeddedTranslations`.  The file-backed
constructor keeps the made, empty table for the same content. -/
theorem embedded_null_file_stores_nil_table :
    NewEmbeddedLocalization bareHost nullBundle =
        some { currentLanguage := "en", supportedLanguages := ["en"],
               translations := GoMap.mk [("en", GoMap.nil)],
               translationsDir := "", useEmbedded := true } ∧
      NewLocalizationWithDir nullFileHost "locale" =
        some { currentLanguage := "en", supportedLanguages := ["en"],
               translations := GoMap.mk [("en", GoMap.mk [])],
               translationsDir := "locale", useEmbedded := false } := by
  constructor <;> decide

/-! ## The built-in sets -/

theorem getDefaultTranslations_cases (c : String) :
    (c = "ru" ∨ c = "en" ∨ c = "de" ∨ c = "fr") ∧
        builtinTranslations.lookup c = some (getDefaultTranslations c) ∨
      (c ≠ "ru" ∧ c ≠ "en" ∧ c ≠ "de" ∧ c ≠ "fr") ∧
        builtinTranslations.lookup c = none ∧
        getDefaultTranslations c = getDefaultTranslations "en" := by
  by_cases hru : c = "ru"
  · subst hru; exact Or.inl ⟨Or.inl rfl, by decide⟩
  by_cases hen : c = "en"
  · subst hen; exact Or.inl ⟨Or.inr (Or.inl rfl), by decide⟩
  by_cases hde : c = "de"
  · subst hde; exact Or.inl ⟨Or.inr (Or.inr (Or.inl rfl)), by decide⟩
  by_cases hfr : c = "fr"
  · subst hfr; exact Or.inl ⟨Or.inr (Or.inr (Or.inr rfl)), by decide⟩
  have hnone : builtinTranslations.lookup c = none := by
    have h1 : (c == "ru") = false := by simp [hru]
    have h2 : (c == "en") = false := by simp [hen]
    have h3 : (c == "de") = false := by simp [hde]
    have h4 : (c == "fr") = false := by simp [hfr]
    simp [builtinTranslations, GoMap.lookup, GoMap.entries, List.lookup, h1, h2, h3, h4]
  refine Or.inr ⟨⟨hru, hen, hde, hfr⟩, hnone, ?_⟩
  unfold getDefaultTranslations
  rw [hnone]
  have hen' : builtinTranslations.lookup "en" = some (getDefaultTranslations "en") := by decide
  simp only [hen']
  rfl

/-- C12. `getDefaultTranslations(c)` returns the table the built-in literal
holds for `c` when `c` is one of `en`, `ru`, `de`, `fr`, and the built-in
English set for every other code; every set it returns has exactly the six
keys `server_started`, `server_stopped`, `package_uploaded`,
`package_not_found`, `invalid_request`, `internal_error`, the literal has
exactly the four languages, and the four sets are each language's own. -/
theorem getDefaultTranslations_builtin_sets (c : String) :
    ((c = "en" ∨ c = "ru" ∨ c = "de" ∨ c = "fr") →
      builtinTranslations.lookup c = some (getDefaultTranslations c)) ∧
    ((c ≠ "en" ∧ c ≠ "ru" ∧ c ≠ "de" ∧ c ≠ "fr") →
      getDefaultTranslations c = getDefaultTranslations "en") ∧
    (getDefaultTranslations c).keys = builtinKeys ∧
    builtinTranslations.keys = ["ru", "en", "de", "fr"] ∧
    (getDefaultTranslations "en").lookup "server_stopped" = some "Server stopped" ∧
    (getDefaultTranslations "ru").lookup "server_stopped" = some "Сервер остановлен" ∧
    (getDefaultTranslations "de").lookup "server_stopped" = some "Server gestoppt" ∧
    (getDefaultTranslations "fr").lookup "server_stopped" = some "Serveur arrêté" := by
  have hkeys : ∀ x : String, (x = "ru" ∨ x = "en" ∨ x = "de" ∨ x = "fr") →
      (getDefaultTranslations x).keys = builtinKeys := by
    intro x hx
    rcases hx with rfl | rfl | rfl | rfl <;> decide
  refine ⟨?_, ?_, ?_, by decide, by decide, by decide, by decide, by decide⟩
  · intro hc
    rcases getDefaultTranslations_cases c with ⟨_, hl⟩ | ⟨⟨hru, hen, hde, hfr⟩, _⟩
    · exact hl
    · rcases hc with h | h | h | h
      · exact absurd h hen
      · exact absurd h hru
      · exact absurd h hde
      · exact absurd h hfr
  · intro hc
    rcases getDefaultTranslations_cases c with ⟨hin, _⟩ | ⟨_, _, heq⟩
    · rcases hin with h | h | h | h
      · exact absurd h hc.2.1
      · exact absurd h hc.1
      · exact absurd h hc.2.2.1
      · exact absurd h hc.2.2.2
    · exact heq
  · rcases getDefaultTranslations_cases c with ⟨hin, _⟩ | ⟨_, _, heq⟩
    · exact hkeys c hin
    · rw [heq]; decide

theorem getDefaultTranslations_builtin_sets_witness :
    getDefaultTranslations "ru-RU" = getDefaultTranslations "en" ∧
      getDefaultTranslations "ru" ≠ getDefaultTranslations "en" :=
  ⟨(getDefaultTranslations_builtin_sets "ru-RU").2.1 (by decide), by decide⟩

/-! ## Decoding and merging -/

theorem lookup_none_of_not_mem {β : Type} (k : String) (es : List (String × β))
    (hk : k ∉ es.map Prod.fst) : List.lookup k es = none := by
  induction es with
  | nil => rfl
  | cons e rest ih =>
    obtain ⟨k1, v1⟩ := e
    simp only [List.map_cons, List.mem_cons, not_or] at hk
    have hb : (k == k1) = false := by simp [hk.1]
    simp only [List.lookup, hb]
    exact ih hk.2

theorem lookup_isSome_iff_mem {β : Type} (k : String) (es : List (String × β)) :
    (∃ v, List.lookup k es = some v) ↔ k ∈ es.map Prod.fst := by
  constructor
  · rintro ⟨v, hv⟩
    exact List.mem_map.2 ⟨(k, v), mem_of_lookup k v es hv, rfl⟩
  · intro hk
    cases hl : List.lookup k es with
    | some v => exact ⟨v, rfl⟩
    | none =>
      induction es with
      | nil => simp at hk
      | cons e rest ih =>
        obtain ⟨k1, v1⟩ := e
        by_cases hk1 : k = k1
        · subst hk1
          simp [List.lookup] at hl
        · have hb : (k == k1) = false := by simp [hk1]
          simp only [List.lookup, hb] at hl
          simp only [List.map_cons, List.mem_cons, hk1, false_or] at hk
          exact ih hk hl

theorem storeEntries_new {β : Type} (k : String) (v : β) (es : List (String × β))
    (hk : k ∉ es.map Prod.fst) : GoMap.storeEntries k v es = es ++ [(k, v)] := by
  induction es with
  | nil => rfl
  | cons e rest ih =>
    obtain ⟨k1, v1⟩ := e
    simp only [List.map_cons, List.mem_cons, not_or] at hk
    have hne : ¬ k1 = k := fun h => hk.1 h.symm
    simp only [GoMap.storeEntries, hne, if_false, List.cons_append, ih hk.2]

theorem storeEntries_keys {β : Type} (k : String) (v : β) (es : List (String × β)) :
    (GoMap.storeEntries k v es).map Prod.fst =
      if k ∈ es.map Prod.fst then es.map Prod.fst else es.map Prod.fst ++ [k] := by
  induction es with
  | nil => simp [GoMap.storeEntries]
  | cons e rest ih =>
    obtain ⟨k1, v1⟩ := e
    by_cases h1 : k1 = k
    · subst h1
      simp [GoMap.storeEntries]
    · have hne : ¬ k = k1 := fun h => h1 h.symm
      simp only [GoMap.storeEntries, h1, if_false, List.map_cons, ih, List.mem_cons, hne,
        false_or]
      split <;> simp

theorem foldl_storeEntries_new (m acc : List (String × String))
    (hm : (m.map Prod.fst).Nodup) (hdisj : ∀ k ∈ m.map Prod.fst, k ∉ acc.map Prod.fst) :
    m.foldl (fun es e => GoMap.storeEntries e.1 e.2 es) acc = acc ++ m := by
  induction m generalizing acc with
  | nil => simp
  | cons e rest ih =>
    obtain ⟨k1, v1⟩ := e
    simp only [List.map_cons, List.nodup_cons] at hm
    have hk1 : k1 ∉ acc.map Prod.fst := hdisj k1 (by simp)
    rw [List.foldl_cons, storeEntries_new k1 v1 acc hk1, ih _ hm.2]
    · simp
    · intro k hk
      simp only [List.map_append, List.map_cons, List.map_nil, List.mem_append,
        List.mem_singleton, not_or]
      refine ⟨hdisj k (by simp [hk]), ?_⟩
      rintro rfl
      exact hm.1 hk

theorem lookup_foldl_storeEntries (m base : List (String × String)) (k : String)
    (hm : (m.map Prod.fst).Nodup) :
    List.lookup k (m.foldl (fun es e => GoMap.storeEntries e.1 e.2 es) base) =
      match List.lookup k m with
      | some v => some v
      | none => List.lookup k base := by
  induction m generalizing base with
  | nil => rfl
  | cons e rest ih =>
    obtain ⟨k1, v1⟩ := e
    simp only [List.map_cons, List.nodup_cons] at hm
    rw [List.foldl_cons, ih _ hm.2, lookup_storeEntries]
    by_cases hk : k = k1
    · subst hk
      rw [lookup_none_of_not_mem k rest hm.1]
      simp [List.lookup]
    · have hb : (k == k1) = false := by simp [hk]
      simp only [List.lookup, hb, if_neg hk]

theorem unmarshalMembers_flat (m acc : List (String × String)) :
    unmarshalMembers (m.map fun kv => (kv.1, Json.str kv.2)) acc =
      Except.ok (m.foldl (fun es e => GoMap.storeEntries e.1 e.2 es) acc) := by
  induction m generalizing acc with
  | nil => rfl
  | cons e rest ih =>
    obtain ⟨k1, v1⟩ := e
    simp only [List.map_cons, unmarshalMembers, List.foldl_cons]
    exact ih _

theorem Unmarshal_flatObject (m : List (String × String)) (hm : (m.map Prod.fst).Nodup) :
    Unmarshal (FileData.json (flatObject m)) = Except.ok (GoMap.mk m) := by
  simp only [Unmarshal, flatObject, unmarshalMembers_flat]
  rw [foldl_storeEntries_new m [] hm (by simp)]
  rfl

theorem unmarshalMembers_ok_iff (members : List (String × Json)) (acc : List (String × String)) :
    (∃ es, unmarshalMembers members acc = Except.ok es) ↔
      ∀ kv ∈ members, kv.2 = Json.null ∨ ∃ s, kv.2 = Json.str s := by
  induction members generalizing acc with
  | nil => simp [unmarshalMembers]
  | cons e rest ih =>
    obtain ⟨k1, v1⟩ := e
    cases v1 with
    | null => simp [unmarshalMembers, ih]
    | str s => simp [unmarshalMembers, ih]
    | bool b => simp [unmarshalMembers]
    | num n => simp [unmarshalMembers]
    | arr items => simp [unmarshalMembers]
    | obj ms => simp [unmarshalMembers]

theorem Unmarshal_ok_iff (data : FileData) :
    (∃ decoded, Unmarshal data = Except.ok decoded) ↔ Decodable data := by
  unfold Decodable
  cases data with
  | malformed => simp [Unmarshal]
  | json v =>
    cases v with
    | null => simp [Unmarshal]
    | bool b => simp [Unmarshal]
    | num n => simp [Unmarshal]
    | str s => simp [Unmarshal]
    | arr items => simp [Unmarshal]
    | obj members =>
      simp only [Unmarshal, FileData.json.injEq, Json.obj.injEq, false_or, exists_eq_left',
        ← unmarshalMembers_ok_iff members []]
      cases unmarshalMembers members [] with
      | ok es => simp
      | error e => simp

/-! ## The effect of `LoadTranslationsFromFile` -/

theorem LoadTranslationsFromFile_nil_store (h : Host) (l l' : Localization)
    (language filePath : String) (err : Option GoError)
    (hnil : l.translations.isNil = true)
    (hload : LoadTranslationsFromFile h l language filePath = some (l', err)) :
    l' = l ∧ err ≠ none := by
  have hstore : l.translations = GoMap.nil := by
    cases hm : l.translations with
    | nil => rfl
    | mk es => rw [hm] at hnil; exact Bool.noConfusion hnil
  unfold LoadTranslationsFromFile at hload
  cases hread : h.readFile filePath with
  | none =>
    rw [hread] at hload
    simp only [Option.some.injEq, Prod.mk.injEq] at hload
    exact ⟨hload.1.symm, by rw [← hload.2]; simp⟩
  | some data =>
    rw [hread] at hload
    simp only at hload
    cases hun : Unmarshal data with
    | error e =>
      rw [hun] at hload
      simp only [Option.some.injEq, Prod.mk.injEq] at hload
      exact ⟨hload.1.symm, by rw [← hload.2]; simp⟩
    | ok decoded =>
      rw [hun] at hload
      simp only [hstore, GoMap.lookup, GoMap.entries, List.lookup, Option.getD_none,
        GoMap.isNil, if_true, GoMap.store] at hload
      exact Option.noConfusion hload

/-- C20. Whatever `LoadTranslationsFromFile(code, path)` returns, it leaves
the active language, the catalogue (and the directory and the embedded flag)
and the entry of every language other than `code` as they were; and when it
returns an error the whole state is unchanged, the table of `code` included,
with no table created for a code that had none. -/
theorem LoadTranslationsFromFile_frame (h : Host) (l l' : Localization)
    (code filePath : String) (err : Option GoError)
    (hload : LoadTranslationsFromFile h l code filePath = some (l', err)) :
    l'.currentLanguage = l.currentLanguage ∧
    l'.supportedLanguages = l.supportedLanguages ∧
    l'.translationsDir = l.translationsDir ∧
    l'.useEmbedded = l.useEmbedded ∧
    (∀ k, k ≠ code → l'.translations.lookup k = l.translations.lookup k) ∧
    (err ≠ none → l' = l) := by
  cases hnil : l.translations.isNil with
  | true =>
    obtain ⟨hl, _⟩ := LoadTranslationsFromFile_nil_store h l l' code filePath err hnil hload
    subst hl
    exact ⟨rfl, rfl, rfl, rfl, fun _ _ => rfl, fun _ => rfl⟩
  | false =>
    rcases LoadTranslationsFromFile_made h l code filePath hnil with
      ⟨e, he, _⟩ | ⟨store', decoded, hs, _, _, _, hother⟩
    · rw [he] at hload
      simp only [Option.some.injEq, Prod.mk.injEq] at hload
      rw [← hload.1]
      exact ⟨rfl, rfl, rfl, rfl, fun _ _ => rfl, fun _ => rfl⟩
    · rw [hs] at hload
      simp only [Option.some.injEq, Prod.mk.injEq] at hload
      rw [← hload.1, ← hload.2]
      exact ⟨rfl, rfl, rfl, rfl, hother, fun hne => absurd rfl hne⟩

theorem LoadTranslationsFromFile_frame_witness :
    LoadTranslationsFromFile patchHost englishOnly "ru" "patch.json"
        = some (patchedRussian, none) ∧
      patchedRussian.currentLanguage = englishOnly.currentLanguage ∧
      patchedRussian.supportedLanguages = englishOnly.supportedLanguages ∧
      patchedRussian.translations.lookup "en" = englishOnly.translations.lookup "en" ∧
      LoadTranslationsFromFile bareHost englishOnly "xx" "missing.json"
        = some (englishOnly, some (GoError.readFile "missing.json")) :=
  have hl : LoadTranslationsFromFile patchHost englishOnly "ru" "patch.json"
      = some (patchedRussian, none) := by decide
  have hf := LoadTranslationsFromFile_frame patchHost englishOnly patchedRussian "ru"
    "patch.json" none hl
  ⟨hl, hf.1, hf.2.1, hf.2.2.2.2.1 "en" (by decide), by decide⟩

/-- C13. For a file holding a flat mapping `m` of distinct string keys to
strings: on a state whose store is made the call returns without error, and
after every call that returns without error the table of `code` maps each key
of `m` to the value `m` gives it and each other key to the value it had before
(to nothing when the code had no table): the old table overridden by `m`. -/
theorem LoadTranslationsFromFile_merges (h : Host) (l : Localization)
    (code filePath : String) (m : List (String × String))
    (hkeys : (m.map Prod.fst).Nodup)
    (hfile : h.readFile filePath = some (FileData.json (flatObject m))) :
    (l.translations.isNil = false →
      ∃ l', LoadTranslationsFromFile h l code filePath = some (l', none)) ∧
    ∀ l', LoadTranslationsFromFile h l code filePath = some (l', none) →
      ∃ table, l'.translations.lookup code = some table ∧
        ∀ key, table.lookup key =
          match List.lookup key m with
          | some value => some value
          | none => ((l.translations.lookup code).getD GoMap.nil).lookup key := by
  have hmade : l.translations.isNil = false →
      ∃ store', LoadTranslationsFromFile h l code filePath
          = some ({ l with translations := store' }, none) ∧
        store'.lookup code = some (GoMap.mk
          (m.foldl (fun es e => GoMap.storeEntries e.1 e.2 es)
            ((l.translations.lookup code).getD GoMap.nil).entries)) := by
    intro hstore
    rcases LoadTranslationsFromFile_made h l code filePath hstore with
      ⟨e, _, hno | ⟨data, hd, hun⟩⟩ | ⟨store', decoded, hs, _, ⟨data, hd, hun⟩, hl', _⟩
    · rw [hfile] at hno; exact Option.noConfusion hno
    · rw [hfile] at hd
      rw [← Option.some.inj hd, Unmarshal_flatObject m hkeys] at hun
      exact Except.noConfusion hun
    · rw [hfile] at hd
      rw [← Option.some.inj hd, Unmarshal_flatObject m hkeys] at hun
      have hdec : decoded = GoMap.mk m := (Except.ok.inj hun).symm
      subst hdec
      exact ⟨store', hs, hl'⟩
  constructor
  · intro hstore
    obtain ⟨store', hs, _⟩ := hmade hstore
    exact ⟨_, hs⟩
  · intro l' hload
    cases hnil : l.translations.isNil with
    | true =>
      exact absurd rfl (LoadTranslationsFromFile_nil_store h l l' code filePath none hnil hload).2
    | false =>
      obtain ⟨store', hs, hl'⟩ := hmade hnil
      rw [hs] at hload
      simp only [Option.some.injEq, Prod.mk.injEq, and_true] at hload
      rw [← hload]
      refine ⟨_, hl', ?_⟩
      intro key
      exact lookup_foldl_storeEntries m _ key hkeys

theorem LoadTranslationsFromFile_merges_witness :
    ∃ l', LoadTranslationsFromFile patchHost englishOnly "en" "patch.json" = some (l', none) ∧
      ∃ table, l'.translations.lookup "en" = some table ∧
        table.lookup "server_stopped" = some "Server halted" ∧
        table.lookup "greeting" = some "Hello %s" ∧
        table.lookup "server_started" = some "Server started on port %d" := by
  have hthm := LoadTranslationsFromFile_merges patchHost englishOnly "en" "patch.json"
    [("server_stopped", "Server halted"), ("greeting", "Hello %s")] (by decide) rfl
  obtain ⟨l', hl'⟩ := hthm.1 rfl
  obtain ⟨table, ht, hlk⟩ := hthm.2 l' hl'
  refine ⟨l', hl', table, ht, ?_, ?_, ?_⟩
  · rw [hlk]; decide
  · rw [hlk]; decide
  · rw [hlk]; decide

theorem lookup_append_pairs {β : Type} (k : String) (xs ys : List (String × β)) :
    List.lookup k (xs ++ ys) =
      match List.lookup k xs with
      | some v => some v
      | none => List.lookup k ys := by
  induction xs with
  | nil => rfl
  | cons e rest ih =>
    obtain ⟨k1, v1⟩ := e
    by_cases hk : k = k1
    · subst hk
      simp [List.lookup]
    · have hb : (k == k1) = false := by simp [hk]
      simp only [List.cons_append, List.lookup, hb]
      exact ih

theorem lookup_foldl_storeEntries_last (m base : List (String × String)) (k : String) :
    List.lookup k (m.foldl (fun es e => GoMap.storeEntries e.1 e.2 es) base) =
      match lastValue k m with
      | some v => some v
      | none => List.lookup k base := by
  unfold lastValue
  induction m generalizing base with
  | nil => rfl
  | cons e rest ih =>
    obtain ⟨k1, v1⟩ := e
    rw [List.foldl_cons, ih, lookup_storeEntries, List.reverse_cons, lookup_append_pairs]
    cases List.lookup k rest.reverse with
    | some v => rfl
    | none =>
      by_cases hk : k = k1
      · subst hk
        simp [List.lookup]
      · have hb : (k == k1) = false := by simp [hk]
        simp only [if_neg hk, List.lookup, hb]

theorem foldl_storeEntries_nodup (m acc : List (String × String))
    (hacc : (acc.map Prod.fst).Nodup) :
    ((m.foldl (fun es e => GoMap.storeEntries e.1 e.2 es) acc).map Prod.fst).Nodup := by
  induction m generalizing acc with
  | nil => exact hacc
  | cons e rest ih =>
    rw [List.foldl_cons]
    apply ih
    rw [storeEntries_keys]
    split
    · exact hacc
    · rename_i hk
      rw [List.nodup_append]
      exact ⟨hacc, by simp, by
        intro a ha hb
        rw [List.mem_singleton] at hb
        exact hk (hb ▸ ha)⟩

theorem unmarshalMembers_decodable (members : List (String × Json))
    (acc : List (String × String))
    (hm : ∀ kv ∈ members, kv.2 = Json.null ∨ ∃ s, kv.2 = Json.str s) :
    unmarshalMembers members acc =
      Except.ok ((members.map fun kv => (kv.1, memberText kv.2)).foldl
        (fun es e => GoMap.storeEntries e.1 e.2 es) acc) := by
  induction members generalizing acc with
  | nil => rfl
  | cons e rest ih =>
    obtain ⟨k1, v1⟩ := e
    have hrest : ∀ kv ∈ rest, kv.2 = Json.null ∨ ∃ s, kv.2 = Json.str s :=
      fun kv hkv => hm kv (List.mem_cons_of_mem _ hkv)
    rcases hm (k1, v1) (List.mem_cons_self _ _) with hnull | ⟨s, hs⟩
    · simp only at hnull
      subst hnull
      simp only [unmarshalMembers, List.map_cons, List.foldl_cons, memberText]
      exact ih _ hrest
    · simp only at hs
      subst hs
      simp only [unmarshalMembers, List.map_cons, List.foldl_cons, memberText]
      exact ih _ hrest

/-- What `json.Unmarshal` leaves for a decodable content: a map with distinct
keys that gives each key the last value the content spells for it. -/
theorem Unmarshal_decodable (data : FileData) (hdec : Decodable data) :
    ∃ decoded, Unmarshal data = Except.ok decoded ∧
      (decoded.entries.map Prod.fst).Nodup ∧
      ∀ key, List.lookup key decoded.entries = lastValue key (spelledPairs data) := by
  rcases hdec with hnull | ⟨members, hobj, hm⟩
  · subst hnull
    exact ⟨GoMap.nil, rfl, by simp [GoMap.entries], fun _ => rfl⟩
  · subst hobj
    refine ⟨GoMap.mk ((members.map fun kv => (kv.1, memberText kv.2)).foldl
      (fun es e => GoMap.storeEntries e.1 e.2 es) []), ?_, ?_, ?_⟩
    · simp only [Unmarshal, unmarshalMembers_decodable members [] hm]
    · exact foldl_storeEntries_nodup _ [] (by simp)
    · intro key
      simp only [GoMap.entries, spelledPairs]
      rw [lookup_foldl_storeEntries_last]
      cases lastValue key (members.map fun kv => (kv.1, memberText kv.2)) <;> rfl

/-- C14, as stated, fails.  A file holding the JSON value `null` is read
without error (the state is unchanged), and so is a file holding an object
with a `null` member. -/
theorem LoadTranslationsFromFile_accepts_null :
    nullFileHost.readFile "locale/translations_en.json" = some (FileData.json Json.null) ∧
      LoadTranslationsFromFile nullFileHost englishOnly "en" "locale/translations_en.json"
        = some (englishOnly, none) ∧
      oddHost.readFile "nulls.json" = some (FileData.json (Json.obj [("a", Json.null)])) ∧
      (LoadTranslationsFromFile oddHost englishOnly "en" "nulls.json").map Prod.snd
        = some none :=
  ⟨rfl, by decide, rfl, by decide⟩

/-- C14, amended.  `LoadTranslationsFromFile(code, path)` returns an error,
leaving the state as it was, whenever the path cannot be read and whenever the
content is neither the JSON value `null` nor a JSON object whose members are
all strings or `null`.  Otherwise, on a state whose store is made, it returns no
error and the code then has a table that is not nil: the table it had before
(an empty one when it had none or a nil one) overridden by the pairs the
content spells, a `null` member giving the empty string and the last of
repeated keys winning; the JSON value `null` spells no pair, so it overrides
nothing. -/
theorem LoadTranslationsFromFile_error_iff (h : Host) (l : Localization)
    (code filePath : String) :
    ((h.readFile filePath = none ∨
        ∃ data, h.readFile filePath = some data ∧ ¬ Decodable data) →
      ∃ err, LoadTranslationsFromFile h l code filePath = some (l, some err)) ∧
    (∀ data, h.readFile filePath = some data → Decodable data →
      l.translations.isNil = false →
      ∃ l' table, LoadTranslationsFromFile h l code filePath = some (l', none) ∧
        l'.translations.lookup code = some table ∧ table.isNil = false ∧
        ∀ key, table.lookup key =
          match lastValue key (spelledPairs data) with
          | some value => some value
          | none => ((l.translations.lookup code).getD GoMap.nil).lookup key) := by
  constructor
  · intro hbad
    unfold LoadTranslationsFromFile
    rcases hbad with hno | ⟨data, hd, hnot⟩
    · rw [hno]
      exact ⟨_, rfl⟩
    · rw [hd]
      simp only
      cases hun : Unmarshal data with
      | error e => exact ⟨_, rfl⟩
      | ok decoded => exact absurd ((Unmarshal_ok_iff data).1 ⟨decoded, hun⟩) hnot
  · intro data hd hdec hstore
    obtain ⟨decoded, hun, hnodup, hlook⟩ := Unmarshal_decodable data hdec
    rcases LoadTranslationsFromFile_made h l code filePath hstore with
      ⟨e, _, hno | ⟨data', hd', hun'⟩⟩ | ⟨store', decoded', hs, _, ⟨data', hd', hun'⟩, hl', _⟩
    · rw [hd] at hno; exact Option.noConfusion hno
    · rw [hd] at hd'
      rw [← Option.some.inj hd', hun] at hun'
      exact Except.noConfusion hun'
    · rw [hd] at hd'
      rw [← Option.some.inj hd', hun] at hun'
      have heq : decoded' = decoded := (Except.ok.inj hun').symm
      subst heq
      refine ⟨_, _, hs, hl', rfl, ?_⟩
      intro key
      have hstep := lookup_foldl_storeEntries decoded'.entries
        ((l.translations.lookup code).getD GoMap.nil).entries key hnodup
      rw [hlook key] at hstep
      exact hstep

theorem LoadTranslationsFromFile_error_iff_witness :
    (∃ err, LoadTranslationsFromFile oddHost englishOnly "en" "list.json"
        = some (englishOnly, some err)) ∧
      (∃ err, LoadTranslationsFromFile oddHost englishOnly "en" "missing.json"
        = some (englishOnly, some err)) ∧
      (∃ l' table, LoadTranslationsFromFile oddHost englishOnly "xx" "nulls.json"
          = some (l', none) ∧
        l'.translations.lookup "xx" = some table ∧ table.isNil = false ∧
        table.lookup "a" = some "" ∧ table.lookup "server_started" = none) ∧
      ∃ l' table, LoadTranslationsFromFile nullFileHost englishOnly "en"
          "locale/translations_en.json" = some (l', none) ∧
        l'.translations.lookup "en" = some table ∧ table.isNil = false ∧
        table.lookup "server_started" = some "Server started on port %d" :=
  ⟨(LoadTranslationsFromFile_error_iff oddHost englishOnly "en" "list.json").1
      (Or.inr ⟨_, rfl, by
        rintro (hnull | ⟨members, hobj, _⟩)
        · exact Json.noConfusion (FileData.json.inj hnull)
        · exact Json.noConfusion (FileData.json.inj hobj)⟩),
   (LoadTranslationsFromFile_error_iff oddHost englishOnly "en" "missing.json").1
      (Or.inl rfl),
   (by
      obtain ⟨l', table, hl, ht, hn, hk⟩ :=
        (LoadTranslationsFromFile_error_iff oddHost englishOnly "xx" "nulls.json").2
          (FileData.json (Json.obj [("a", Json.null)])) rfl
          (Or.inr ⟨_, rfl, by
            intro kv hkv
            rw [List.mem_singleton] at hkv
            subst hkv
            exact Or.inl rfl⟩) rfl
      exact ⟨l', table, hl, ht, hn, (hk "a").trans (by decide),
        (hk "server_started").trans (by decide)⟩),
   (by
      obtain ⟨l', table, hl, ht, hn, hk⟩ :=
        (LoadTranslationsFromFile_error_iff nullFileHost englishOnly "en"
          "locale/translations_en.json").2 (FileData.json Json.null) rfl (Or.inl rfl) rfl
      exact ⟨l', table, hl, ht, hn, (hk "server_started").trans (by decide)⟩)⟩

theorem sprintf_translations_file (h : Host) (language : String) :
    Sprintf h "translations_%s.json" [Arg.str language]
      = "translations_" ++ language ++ ".json" := by
  have hp : plainDirectives "translations_%s.json".toList = true := by decide
  unfold Sprintf
  rw [if_pos hp]
  apply String.ext
  simp [sprintfLoop, formatVerb, extraArgs, String.singleton]

theorem GoMap.store_keys {β : Type} (m m' : GoMap β) (k : String) (v : β)
    (hs : m.store k v = some m') :
    m'.keys = if k ∈ m.keys then m.keys else m.keys ++ [k] := by
  cases m with
  | nil => exact Option.noConfusion hs
  | mk es =>
    simp only [GoMap.store, Option.some.injEq] at hs
    rw [← hs]
    exact storeEntries_keys k v es

theorem GoMap.mem_keys_iff {β : Type} (m : GoMap β) (k : String) :
    k ∈ m.keys ↔ ∃ v, m.lookup k = some v :=
  (lookup_isSome_iff_mem k m.entries).symm

theorem mergeEntries_keys (language : String) (entries : List (String × String))
    (store store' : GoMap (GoMap String)) (hmem : language ∈ store.keys)
    (hm : mergeEntries language entries store = some store') :
    store'.keys = store.keys := by
  induction entries generalizing store with
  | nil =>
    simp only [mergeEntries, Option.some.injEq] at hm
    rw [hm]
  | cons e rest ih =>
    obtain ⟨key, value⟩ := e
    unfold mergeEntries at hm
    cases ht : ((store.lookup language).getD GoMap.nil).store key value with
    | none => rw [ht] at hm; exact Option.noConfusion hm
    | some table =>
      rw [ht] at hm
      simp only at hm
      cases hs : store.store language table with
      | none => rw [hs] at hm; exact Option.noConfusion hm
      | some store1 =>
        rw [hs] at hm
        simp only at hm
        have hk1 : store1.keys = store.keys := by
          rw [GoMap.store_keys store store1 language table hs, if_pos hmem]
        rw [ih store1 (hk1 ▸ hmem) hm, hk1]

theorem LoadTranslationsFromFile_keys (h : Host) (l l' : Localization)
    (language filePath : String) (err : Option GoError)
    (hload : LoadTranslationsFromFile h l language filePath = some (l', err)) :
    l'.translations.keys = l.translations.keys ∨
      (language ∉ l.translations.keys ∧ err = none ∧
        l'.translations.keys = l.translations.keys ++ [language]) := by
  unfold LoadTranslationsFromFile at hload
  cases hread : h.readFile filePath with
  | none =>
    rw [hread] at hload
    simp only [Option.some.injEq, Prod.mk.injEq] at hload
    rw [← hload.1]; exact Or.inl rfl
  | some data =>
    rw [hread] at hload
    simp only at hload
    cases hun : Unmarshal data with
    | error e =>
      rw [hun] at hload
      simp only [Option.some.injEq, Prod.mk.injEq] at hload
      rw [← hload.1]; exact Or.inl rfl
    | ok decoded =>
      rw [hun] at hload
      simp only at hload
      split at hload
      · exact Option.noConfusion hload
      · rename_i store hmade
        split at hload
        · exact Option.noConfusion hload
        · rename_i store' hmerge
          simp only [Option.some.injEq, Prod.mk.injEq] at hload
          rw [← hload.1, ← hload.2]
          simp only
          by_cases hnil : ((l.translations.lookup language).getD GoMap.nil).isNil = true
          · rw [if_pos hnil] at hmade
            have hk := GoMap.store_keys _ _ _ _ hmade
            have hin : language ∈ store.keys := by
              rw [hk]; split <;> simp [*]
            rw [mergeEntries_keys language _ store store' hin hmerge, hk]
            by_cases hmem : language ∈ l.translations.keys
            · rw [if_pos hmem]; exact Or.inl rfl
            · rw [if_neg hmem]; exact Or.inr ⟨hmem, trivial, rfl⟩
          · rw [if_neg hnil] at hmade
            have hst : store = l.translations := (Option.some.inj hmade).symm
            subst hst
            have hin : language ∈ l.translations.keys := by
              rw [GoMap.mem_keys_iff]
              cases hlk : l.translations.lookup language with
              | none => rw [hlk] at hnil; exact absurd rfl hnil
              | some t => exact ⟨t, rfl⟩
            exact Or.inl (mergeEntries_keys language _ _ store' hin hmerge)

theorem initializeLanguage_table (h : Host) (l : Localization) (language : String)
    (hstore : l.translations.isNil = false) :
    ∃ l', initializeLanguage h l language = some l' ∧
      l'.translations.lookup language
        = some (expectedTable h l.translationsDir language) ∧
      l'.translations.keys =
        if language ∈ l.translations.keys then l.translations.keys
        else l.translations.keys ++ [language] := by
  obtain ⟨store, hs, hn, hl⟩ := GoMap.store_of_made l.translations language GoMap.make hstore
  have hks := GoMap.store_keys _ _ _ _ hs
  have hin : language ∈ store.keys := by
    rw [hks]; split <;> simp [*]
  have hlang : store.lookup language = some GoMap.make := by rw [hl]; simp
  unfold initializeLanguage expectedTable
  rw [hs]
  simp only
  rcases LoadTranslationsFromFile_made h { l with translations := store } language
      (h.joinPath l.translationsDir (Sprintf h "translations_%s.json" [Arg.str language]))
      hn with ⟨err, hload, hwhy⟩ | ⟨store', decoded, hload, hn', ⟨data, hd, hun⟩, hl', _⟩
  · obtain ⟨store2, hs2, hn2, hl2⟩ :=
      GoMap.store_of_made store language (getDefaultTranslations language) hn
    have hk2 := GoMap.store_keys _ _ _ _ hs2
    rw [hload]
    simp only
    rw [hs2]
    refine ⟨_, rfl, ?_, ?_⟩
    · simp only
      rw [hl2, if_pos rfl]
      rcases hwhy with hno | ⟨data, hd, hun⟩
      · rw [hno]
      · rw [hd]
        simp only [hun]
    · simp only
      rw [hk2, if_pos hin, hks]
  · have hkeys := LoadTranslationsFromFile_keys h _ _ language _ none hload
    simp only at hkeys hd hl'
    rw [hload]
    refine ⟨_, rfl, ?_, ?_⟩
    · simp only
      rw [hl', hd]
      simp only [hun, hlang, Option.getD_some]
      rfl
    · simp only
      rcases hkeys with hk | ⟨hno, _⟩
      · rw [hk, hks]
      · exact absurd hin hno

theorem initializeLoop_tables (h : Host) (languages : List String) (l : Localization)
    (hstore : l.translations.isNil = false) :
    ∃ l', initializeLoop h languages l = some l' ∧
      (∀ c ∈ languages, l'.translations.lookup c
        = some (expectedTable h l.translationsDir c)) ∧
      (∀ c, l.translations.lookup c = some (expectedTable h l.translationsDir c) →
        l'.translations.lookup c = some (expectedTable h l.translationsDir c)) ∧
      l'.translations.keys = appendNew l.translations.keys languages := by
  induction languages generalizing l with
  | nil => exact ⟨l, rfl, by simp, fun _ hc => hc, rfl⟩
  | cons language rest ih =>
    obtain ⟨l1, h1, hn1, _, _, hd1, _, _, ho1⟩ := initializeLanguage_made h l language hstore
    obtain ⟨l1', h1', ht1, hk1⟩ := initializeLanguage_table h l language hstore
    have heq : l1' = l1 := Option.some.inj (h1'.symm.trans h1)
    subst heq
    obtain ⟨l2, h2, ht2, hkeep2, hk2⟩ := ih l1' hn1
    rw [hd1] at ht2 hkeep2
    have hkeep1 : ∀ c, l.translations.lookup c = some (expectedTable h l.translationsDir c) →
        l1'.translations.lookup c = some (expectedTable h l.translationsDir c) := by
      intro c hc
      by_cases hcl : c = language
      · rw [hcl]; exact ht1
      · rw [ho1 c hcl]; exact hc
    refine ⟨l2, ?_, ?_, ?_, ?_⟩
    · simp only [initializeLoop, h1]
      exact h2
    · intro c hc
      rcases List.mem_cons.1 hc with rfl | hr
      · exact hkeep2 _ ht1
      · exact ht2 c hr
    · intro c hc
      exact hkeep2 c (hkeep1 c hc)
    · rw [hk2, hk1]
      simp only [appendNew]
      split <;> rfl

/-! ## The state after construction -/

theorem firstOccurrences_of_nodup (xs : List String) (hx : xs.Nodup) :
    firstOccurrences xs = xs := by
  induction xs with
  | nil => rfl
  | cons x rest ih =>
    rw [List.nodup_cons] at hx
    simp only [firstOccurrences, ih hx.2]
    congr 1
    rw [List.filter_eq_self]
    intro y hy
    have : y ≠ x := fun hyx => hx.1 (hyx ▸ hy)
    simp [this]

theorem scanAvailableLanguages_nodup (h : Host) (l : Localization) :
    (scanAvailableLanguages h l).supportedLanguages.Nodup := by
  rw [scan_supported_eq]
  cases h.readDir l.translationsDir with
  | none => simp
  | some files =>
    simp only
    split
    · simp
    · rw [scanFiles_eq]
      exact firstOccurrences_nodup _

theorem scanAvailableLanguages_fields (h : Host) (l : Localization) :
    (scanAvailableLanguages h l).translations = l.translations ∧
      (scanAvailableLanguages h l).translationsDir = l.translationsDir := by
  unfold scanAvailableLanguages
  split
  · exact ⟨rfl, rfl⟩
  · simp only
    split <;> exact ⟨rfl, rfl⟩

theorem detectFromEnv_mem (h : Host) (supported vars : List String) (s : String)
    (hs : detectFromEnv h supported vars = some s) : s ∈ supported := by
  induction vars with
  | nil => exact Option.noConfusion hs
  | cons v rest ih =>
    unfold detectFromEnv at hs
    simp only at hs
    split at hs
    · split at hs
      · rename_i found hfound
        rw [← Option.some.inj hs]
        exact List.mem_of_find?_eq_some hfound
      · exact ih hs
    · exact ih hs

theorem detectSystemLanguage_mem (h : Host) (l : Localization)
    (hne : l.supportedLanguages ≠ []) :
    detectSystemLanguage h l ∈ l.supportedLanguages := by
  unfold detectSystemLanguage
  split
  · rename_i s hs
    exact detectFromEnv_mem h _ _ s hs
  · split
    · rename_i hwin
      simp only [Bool.and_eq_true, decide_eq_true_eq, List.any_eq_true, beq_iff_eq] at hwin
      obtain ⟨_, s, hs, hsd⟩ := hwin
      exact hsd ▸ hs
    · split
      · rename_i first rest hl
        rw [hl]; exact List.mem_cons_self _ _
      · rename_i hl
        exact absurd hl hne

/-- The state `NewLocalizationWithDir` returns. -/
theorem NewLocalizationWithDir_state (h : Host) (translationsDir : String) :
    ∃ l, NewLocalizationWithDir h translationsDir = some l ∧
      l.translations.isNil = false ∧
      l.supportedLanguages ≠ [] ∧
      l.supportedLanguages.Nodup ∧
      l.currentLanguage ∈ l.supportedLanguages ∧
      l.translations.keys = l.supportedLanguages ∧
      l.translationsDir = translationsDir ∧
      ∀ c ∈ l.supportedLanguages,
        l.translations.lookup c = some (expectedTable h translationsDir c) := by
  let l0 : Localization :=
    { currentLanguage := "", supportedLanguages := [], translations := GoMap.make,
      translationsDir := translationsDir, useEmbedded := false }
  let l1 := scanAvailableLanguages h l0
  let l2 : Localization := { l1 with currentLanguage := detectSystemLanguage h l1 }
  have hnew : NewLocalizationWithDir h translationsDir = initializeLoop h l2.supportedLanguages l2 :=
    rfl
  have hf := scanAvailableLanguages_fields h l0
  have hmade : l2.translations.isNil = false := by
    show l1.translations.isNil = false
    rw [hf.1]; rfl
  have hdir : l2.translationsDir = translationsDir := hf.2
  have hkeys0 : l2.translations.keys = [] := by
    show l1.translations.keys = []
    rw [hf.1]; rfl
  have hnodup : l2.supportedLanguages.Nodup := scanAvailableLanguages_nodup h l0
  have hne : l2.supportedLanguages ≠ [] := scanAvailableLanguages_ne_nil h l0
  obtain ⟨l', h1, hn1, hc1, hs1, hd1, _, _, _, _⟩ :=
    initializeLoop_made h l2.supportedLanguages l2 hmade
  obtain ⟨l'', h2, ht2, _, hk2⟩ := initializeLoop_tables h l2.supportedLanguages l2 hmade
  have heq : l'' = l' := Option.some.inj (h2.symm.trans h1)
  subst heq
  refine ⟨l'', hnew.trans h1, hn1, ?_, ?_, ?_, ?_, hd1.trans hdir, ?_⟩
  · rw [hs1]; exact hne
  · rw [hs1]; exact hnodup
  · rw [hs1, hc1]
    exact detectSystemLanguage_mem h l1 hne
  · rw [hk2, hkeys0, appendNew_nil, firstOccurrences_of_nodup _ hnodup, hs1]
  · intro c hc
    rw [hs1] at hc
    rw [ht2 c hc, hdir]

/-- C11, as stated, fails.  A readable `translations_en.json` holding the
JSON value `null` is no flat string-to-string mapping, and after
`NewLocalizationWithDir` the table of `en` is empty: neither a mapping the file
holds nor the built-in set.  Likewise a file holding an object with a `null`
member leaves that key with the empty string and no built-in key. -/
theorem null_file_gives_neither_mapping_nor_builtin :
    nullFileHost.readFile (nullFileHost.joinPath "locale" "translations_en.json")
        = some (FileData.json Json.null) ∧
      (∀ m, FileData.json Json.null ≠ FileData.json (flatObject m)) ∧
      NewLocalizationWithDir nullFileHost "locale" = some nullFileState ∧
      nullFileState.supportedLanguages = ["en"] ∧
      nullFileState.translations.lookup "en" = some (GoMap.mk []) ∧
      GoMap.mk [] ≠ getDefaultTranslations "en" ∧
      nullMemberHost.readFile (nullMemberHost.joinPath "locale" "translations_en.json")
        = some (FileData.json (Json.obj [("a", Json.null), ("b", Json.str "B")])) ∧
      (∀ m, FileData.json (Json.obj [("a", Json.null), ("b", Json.str "B")])
        ≠ FileData.json (flatObject m)) ∧
      NewLocalizationWithDir nullMemberHost "locale" = some nullMemberState ∧
      nullMemberState.translations.lookup "en" = some (GoMap.mk [("a", ""), ("b", "B")]) ∧
      GoMap.mk [("a", ""), ("b", "B")] ≠ getDefaultTranslations "en" := by
  refine ⟨rfl, ?_, by decide, rfl, by decide, by decide, rfl, ?_, by decide, by decide,
    by decide⟩
  · intro m hm
    exact Json.noConfusion (FileData.json.inj hm)
  · intro m hm
    have hobj := Json.obj.inj (FileData.json.inj hm)
    cases m with
    | nil => simp at hobj
    | cons e rest =>
      simp only [List.map_cons, List.cons.injEq, Prod.mk.injEq] at hobj
      exact Json.noConfusion hobj.1.2

/-- C11, amended.  After `NewLocalizationWithDir`, for every code `c` of the
catalogue: when the file `translations_<c>.json` of the directory is readable
and holds a flat mapping `m` of distinct string keys to strings, the table of
`c` is `m` itself, with no built-in key added; when the file cannot be read
(missing or unreadable) or its content is one that `json.Unmarshal` rejects
(it is not JSON, or it is neither `null` nor an object of strings and `null`s),
the table of `c` is the built-in set `getDefaultTranslations(c)`; and when the
file holds `null` or an object of strings and `null`s, the table of `c` is a
made map holding exactly the pairs the content spells (none for `null`, the
empty string for a `null` member, the last of repeated keys winning), with no
built-in key added. -/
theorem NewLocalizationWithDir_loads_tables (h : Host) (translationsDir : String)
    (l : Localization) (c : String)
    (hnew : NewLocalizationWithDir h translationsDir = some l)
    (hc : c ∈ l.supportedLanguages) :
    (∀ m : List (String × String), (m.map Prod.fst).Nodup →
      h.readFile (h.joinPath translationsDir ("translations_" ++ c ++ ".json"))
        = some (FileData.json (flatObject m)) →
      l.translations.lookup c = some (GoMap.mk m)) ∧
    ((h.readFile (h.joinPath translationsDir ("translations_" ++ c ++ ".json")) = none ∨
        ∃ data, h.readFile (h.joinPath translationsDir ("translations_" ++ c ++ ".json"))
          = some data ∧ ¬ Decodable data) →
      l.translations.lookup c = some (getDefaultTranslations c)) ∧
    (∀ data, h.readFile (h.joinPath translationsDir ("translations_" ++ c ++ ".json"))
        = some data → Decodable data →
      ∃ table, l.translations.lookup c = some table ∧ table.isNil = false ∧
        ∀ key, table.lookup key = lastValue key (spelledPairs data)) := by
  obtain ⟨l', hl', _, _, _, _, _, _, htab⟩ := NewLocalizationWithDir_state h translationsDir
  have heq : l' = l := Option.some.inj (hl'.symm.trans hnew)
  subst heq
  have ht := htab c hc
  unfold expectedTable at ht
  rw [sprintf_translations_file] at ht
  refine ⟨?_, ?_, ?_⟩
  · intro m hm hfile
    rw [hfile] at ht
    simp only [Unmarshal_flatObject m hm] at ht
    rw [ht]
    simp only [GoMap.entries]
    rw [foldl_storeEntries_new m [] hm (by simp)]
    rfl
  · rintro (hno | ⟨data, hbad, hnot⟩)
    · rw [hno] at ht
      exact ht
    · rw [hbad] at ht
      simp only at ht
      cases hun : Unmarshal data with
      | error e =>
        rw [hun] at ht
        exact ht
      | ok decoded => exact absurd ((Unmarshal_ok_iff data).1 ⟨decoded, hun⟩) hnot
  · intro data hfile hdec
    obtain ⟨decoded, hun, hnodup, hlook⟩ := Unmarshal_decodable data hdec
    rw [hfile] at ht
    simp only [hun] at ht
    refine ⟨_, ht, rfl, ?_⟩
    intro key
    have hstep := lookup_foldl_storeEntries decoded.entries [] key hnodup
    rw [hlook key] at hstep
    rw [show (GoMap.mk (decoded.entries.foldl
      (fun es e => GoMap.storeEntries e.1 e.2 es) [])).lookup key
        = List.lookup key (decoded.entries.foldl
          (fun es e => GoMap.storeEntries e.1 e.2 es) []) from rfl, hstep]
    cases lastValue key (spelledPairs data) <;> rfl

theorem NewLocalizationWithDir_loads_tables_witness :
    (NewLocalizationWithDir mixedHost "locale").map
        (fun l => (l.supportedLanguages, l.translations.lookup "en",
          l.translations.lookup "ru"))
      = some (["en", "ru"], some (GoMap.mk [("hello", "Hello"), ("bye", "Goodbye")]),
          some (getDefaultTranslations "ru")) ∧
    ∃ table, nullMemberState.translations.lookup "en" = some table ∧
      table.lookup "a" = some "" ∧ table.lookup "b" = some "B" ∧
      table.lookup "server_started" = none := by
  constructor
  · obtain ⟨l, hl, _⟩ := NewLocalizationWithDir_state mixedHost "locale"
    have hsup : l.supportedLanguages = ["en", "ru"] := by
      have : (NewLocalizationWithDir mixedHost "locale").map (fun l => l.supportedLanguages)
          = some ["en", "ru"] := by decide
      rw [hl] at this
      exact Option.some.inj this
    have hen := (NewLocalizationWithDir_loads_tables mixedHost "locale" l "en" hl
      (by rw [hsup]; decide)).1 [("hello", "Hello"), ("bye", "Goodbye")] (by decide) rfl
    have hru := (NewLocalizationWithDir_loads_tables mixedHost "locale" l "ru" hl
      (by rw [hsup]; decide)).2.1 (Or.inr ⟨FileData.malformed, rfl, by
        rintro (hnull | ⟨members, hobj, _⟩)
        · exact FileData.noConfusion hnull
        · exact FileData.noConfusion hobj⟩)
    rw [hl]
    simp only [Option.map_some', hsup, hen, hru]
  · obtain ⟨table, ht, _, hk⟩ :=
      (NewLocalizationWithDir_loads_tables nullMemberHost "locale" nullMemberState "en"
        (by decide) (by decide)).2.2
        (FileData.json (Json.obj [("a", Json.null), ("b", Json.str "B")])) rfl
        (Or.inr ⟨_, rfl, by
          intro kv hkv
          simp only [List.mem_cons, List.mem_singleton, List.not_mem_nil, or_false] at hkv
          rcases hkv with rfl | rfl
          · exact Or.inl rfl
          · exact Or.inr ⟨_, rfl⟩⟩)
    exact ⟨table, ht, (hk "a").trans (by decide), (hk "b").trans (by decide),
      (hk "server_started").trans (by decide)⟩

/-! ## States reached by calls -/

theorem Call.run_invariant (call : Call) (l : Localization) (codes : List String)
    (hinv : StoreInvariant l codes) :
    ∃ l', call.run l = some l' ∧ StoreInvariant l' (codes ++ loadedCodes [call]) ∧
      l'.supportedLanguages = l.supportedLanguages := by
  obtain ⟨hmade, hnodup, hcur, hsub⟩ := hinv
  cases call with
  | setLanguage code =>
    refine ⟨(SetLanguage l code).1, rfl, ?_, ?_⟩
    · unfold SetLanguage
      cases hl : l.translations.lookup code with
      | none => exact ⟨hmade, hnodup, hcur, fun k hk => by simpa [loadedCodes] using hsub k hk⟩
      | some t =>
        refine ⟨hmade, hnodup, ?_, fun k hk => by simpa [loadedCodes] using hsub k hk⟩
        exact (GoMap.mem_keys_iff _ _).2 ⟨t, hl⟩
    · unfold SetLanguage
      cases l.translations.lookup code <;> rfl
  | load h code path =>
    rcases LoadTranslationsFromFile_made h l code path hmade with
      ⟨err, hload, _⟩ | ⟨store', decoded, hload, hn', _, _, _⟩
    · refine ⟨l, by simp [Call.run, hload], ⟨hmade, hnodup, hcur, ?_⟩, rfl⟩
      intro k hk
      exact List.mem_append_left _ (hsub k hk)
    · have hkeys := LoadTranslationsFromFile_keys h l _ code path none hload
      simp only at hkeys
      refine ⟨{ l with translations := store' }, by simp [Call.run, hload], ⟨hn', ?_, ?_, ?_⟩, rfl⟩
      · rcases hkeys with hk | ⟨hno, _, hk⟩
        · simp only [hk]; exact hnodup
        · simp only [hk]
          rw [List.nodup_append]
          exact ⟨hnodup, by simp, by
            intro a ha hb
            rw [List.mem_singleton] at hb
            exact hno (hb ▸ ha)⟩
      · rcases hkeys with hk | ⟨_, _, hk⟩
        · simp only [hk]; exact hcur
        · simp only [hk]; exact List.mem_append_left _ hcur
      · intro k hk
        simp only [loadedCodes, List.mem_append, List.mem_singleton]
        rcases hkeys with hk' | ⟨_, _, hk'⟩
        · simp only [hk'] at hk; exact Or.inl (hsub k hk)
        · simp only [hk', List.mem_append, List.mem_singleton] at hk
          rcases hk with hk | hk
          · exact Or.inl (hsub k hk)
          · exact Or.inr hk

theorem loadedCodes_cons (call : Call) (rest : List Call) :
    loadedCodes (call :: rest) = loadedCodes [call] ++ loadedCodes rest := by
  cases call <;> rfl

theorem runCalls_invariant (calls : List Call) (l : Localization) (codes : List String)
    (hinv : StoreInvariant l codes) :
    ∃ l', runCalls calls l = some l' ∧ StoreInvariant l' (codes ++ loadedCodes calls) ∧
      l'.supportedLanguages = l.supportedLanguages := by
  induction calls generalizing l codes with
  | nil => exact ⟨l, rfl, by simpa [loadedCodes] using hinv, rfl⟩
  | cons call rest ih =>
    obtain ⟨l1, h1, hinv1, hs1⟩ := Call.run_invariant call l codes hinv
    obtain ⟨l2, h2, hinv2, hs2⟩ := ih l1 _ hinv1
    refine ⟨l2, ?_, ?_, hs2.trans hs1⟩
    · simp only [runCalls, h1]
      exact h2
    · rw [loadedCodes_cons, ← List.append_assoc]
      exact hinv2

theorem NewLocalizationWithDir_invariant (h : Host) (translationsDir : String) :
    ∃ l, NewLocalizationWithDir h translationsDir = some l ∧
      StoreInvariant l l.supportedLanguages ∧ l.translations.keys = l.supportedLanguages := by
  obtain ⟨l, hl, hmade, _, hnodup, hcur, hkeys, _, _⟩ :=
    NewLocalizationWithDir_state h translationsDir
  exact ⟨l, hl, ⟨hmade, hkeys ▸ hnodup, hkeys ▸ hcur, fun k hk => hkeys ▸ hk⟩, hkeys⟩

theorem selectTable_of_entry (l : Localization) (t : GoMap String)
    (ht : l.translations.lookup l.currentLanguage = some t) : selectTable l = t := by
  simp [selectTable, ht]

/-- C19. In every state reached from `NewLocalizationWithDir` (for every
host: directory content, environment and platform) by any sequence of
`SetLanguage` and `LoadTranslationsFromFile` calls, no call panics and the
store has an entry for the active language, so `Get` selects that entry's
table, never a fallback one, and resolves every key against it. -/
theorem active_language_has_table (h : Host) (translationsDir : String)
    (l0 : Localization) (calls : List Call)
    (hnew : NewLocalizationWithDir h translationsDir = some l0) :
    ∃ l, runCalls calls l0 = some l ∧
      ∃ table, l.translations.lookup l.currentLanguage = some table ∧
        selectTable l = table ∧
        ∀ (h' : Host) (key : String) (args : List Arg),
          Get h' l key args =
            match table.lookup key with
            | some translation =>
              if args.length > 0 then Sprintf h' translation args else translation
            | none => key := by
  obtain ⟨l0', hl0, hinv0, _⟩ := NewLocalizationWithDir_invariant h translationsDir
  have heq : l0' = l0 := Option.some.inj (hl0.symm.trans hnew)
  subst heq
  obtain ⟨l, hrun, ⟨_, _, hcur, _⟩, _⟩ := runCalls_invariant calls l0' _ hinv0
  obtain ⟨table, ht⟩ := (GoMap.mem_keys_iff _ _).1 hcur
  refine ⟨l, hrun, table, ht, selectTable_of_entry l table ht, ?_⟩
  intro h' key args
  unfold Get
  rw [selectTable_of_entry l table ht]

theorem active_language_has_table_witness :
    NewLocalizationWithDir extraHost "locale" = some englishOnly ∧
      ∃ l, runCalls switchCalls englishOnly = some l ∧
        ∃ table, l.translations.lookup l.currentLanguage = some table ∧
          selectTable l = table :=
  ⟨by decide,
    (active_language_has_table extraHost "locale" englishOnly switchCalls (by decide)).imp
      fun _ hl => ⟨hl.1, hl.2.imp fun _ ht => ⟨ht.1, ht.2.1⟩⟩⟩

/-- C16, as stated, fails.  On an instance whose catalogue is `["en"]`,
`LoadTranslationsFromFile("xx", "extra.json")` creates a table for `xx`, after
which `SetLanguage("xx")` is accepted and the active language is `xx`, which
was not in the catalogue computed at construction. -/
theorem active_language_outside_catalogue :
    NewLocalizationWithDir extraHost "locale" = some englishOnly ∧
      englishOnly.supportedLanguages = ["en"] ∧
      runCalls [Call.load extraHost "xx" "extra.json"] englishOnly = some extraLoaded ∧
      SetLanguage extraLoaded "xx" = (extraActive, none) ∧
      runCalls switchCalls englishOnly = some extraActive ∧
      extraActive.currentLanguage = "xx" := by
  decide

theorem scanWalk_eq (entries : List WalkEntry) :
    (scanWalk entries).2 = firstOccurrences
      ((entries.filter fun d => !(d.failed || d.isDir)).filterMap fun d =>
        findLanguageCode "locale/translations_" d.path) := by
  have hstep : ∀ (acc : List (String × Bool) × List String) (d : WalkEntry),
      (if d.failed then acc else scanStep "locale/translations_" acc d.isDir d.path)
        = scanStep "locale/translations_" acc (d.failed || d.isDir) d.path := by
    intro acc d
    cases hf : d.failed with
    | true => simp [scanStep]
    | false => simp
  unfold scanWalk
  simp only [hstep]
  rw [scan_foldl "locale/translations_" (fun d : WalkEntry => d.failed || d.isDir)
    WalkEntry.path entries ([], []) (by intro c; simp), appendNew_nil]

theorem scanEmbeddedLanguages_catalogue (b : Bundle) (l : Localization) :
    (scanEmbeddedLanguages b l).supportedLanguages ≠ [] ∧
      (scanEmbeddedLanguages b l).supportedLanguages.Nodup ∧
      (scanEmbeddedLanguages b l).translations = l.translations := by
  unfold scanEmbeddedLanguages
  simp only
  split
  · exact ⟨by simp, by simp, rfl⟩
  · rename_i hne
    refine ⟨fun hnil => hne (by rw [show (scanWalk b.walk).2 = [] from hnil]; rfl), ?_, rfl⟩
    show (scanWalk b.walk).2.Nodup
    rw [scanWalk_eq]
    exact firstOccurrences_nodup _

theorem initializeEmbeddedLanguage_keys (h : Host) (b : Bundle) (l l' : Localization)
    (language : String)
    (hinit : initializeEmbeddedLanguage h b l language = some l') :
    l'.translations.keys =
      if language ∈ l.translations.keys then l.translations.keys
      else l.translations.keys ++ [language] := by
  unfold initializeEmbeddedLanguage at hinit
  cases hs : l.translations.store language GoMap.make with
  | none => rw [hs] at hinit; exact Option.noConfusion hinit
  | some store =>
    rw [hs] at hinit
    simp only at hinit
    have hks := GoMap.store_keys _ _ _ _ hs
    have hin : language ∈ store.keys := by
      rw [hks]; split <;> simp [*]
    have hkeep : ∀ (t : GoMap String) (store2 : GoMap (GoMap String)),
        store.store language t = some store2 → store2.keys =
          if language ∈ l.translations.keys then l.translations.keys
          else l.translations.keys ++ [language] := by
      intro t store2 h2
      rw [GoMap.store_keys _ _ _ _ h2, if_pos hin, hks]
    unfold loadEmbeddedTranslations at hinit
    simp only at hinit
    cases hread : b.readFile (Sprintf h "locale/translations_%s.json" [Arg.str language]) with
    | none =>
      rw [hread] at hinit
      simp only at hinit
      cases h2 : store.store language (getDefaultTranslations language) with
      | none => rw [h2] at hinit; exact Option.noConfusion hinit
      | some store2 =>
        rw [h2] at hinit
        rw [← Option.some.inj hinit]
        exact hkeep _ _ h2
    | some data =>
      rw [hread] at hinit
      simp only at hinit
      cases hun : Unmarshal data with
      | error e =>
        rw [hun] at hinit
        simp only at hinit
        cases h2 : store.store language (getDefaultTranslations language) with
        | none => rw [h2] at hinit; exact Option.noConfusion hinit
        | some store2 =>
          rw [h2] at hinit
          rw [← Option.some.inj hinit]
          exact hkeep _ _ h2
      | ok decoded =>
        rw [hun] at hinit
        simp only at hinit
        cases h2 : store.store language decoded with
        | none => rw [h2] at hinit; exact Option.noConfusion hinit
        | some store2 =>
          rw [h2] at hinit
          rw [← Option.some.inj hinit]
          exact hkeep _ _ h2

theorem initializeEmbeddedLoop_keys (h : Host) (b : Bundle) (languages : List String)
    (l l' : Localization) (hloop : initializeEmbeddedLoop h b languages l = some l') :
    l'.translations.keys = appendNew l.translations.keys languages := by
  induction languages generalizing l with
  | nil =>
    simp only [initializeEmbeddedLoop, Option.some.injEq] at hloop
    rw [← hloop]; rfl
  | cons language rest ih =>
    unfold initializeEmbeddedLoop at hloop
    cases h1 : initializeEmbeddedLanguage h b l language with
    | none => rw [h1] at hloop; exact Option.noConfusion hloop
    | some l1 =>
      rw [h1] at hloop
      simp only at hloop
      rw [ih l1 hloop, initializeEmbeddedLanguage_keys h b l l1 language h1]
      simp only [appendNew]
      split <;> rfl

theorem NewEmbeddedLocalization_invariant (h : Host) (b : Bundle) :
    ∃ l, NewEmbeddedLocalization h b = some l ∧
      StoreInvariant l l.supportedLanguages ∧ l.translations.keys = l.supportedLanguages := by
  let l0 : Localization :=
    { currentLanguage := "", supportedLanguages := [], translations := GoMap.make,
      translationsDir := "", useEmbedded := true }
  let l1 := scanEmbeddedLanguages b l0
  let l2 : Localization := { l1 with currentLanguage := detectSystemLanguage h l1 }
  have hnew : NewEmbeddedLocalization h b = initializeEmbeddedLoop h b l2.supportedLanguages l2 :=
    rfl
  obtain ⟨hne, hnodup, hstore⟩ := scanEmbeddedLanguages_catalogue b l0
  have hmade : l2.translations.isNil = false := by
    show l1.translations.isNil = false
    rw [hstore]; rfl
  have hkeys0 : l2.translations.keys = [] := by
    show l1.translations.keys = []
    rw [hstore]; rfl
  obtain ⟨l', h1, hn1, hc1, hs1, _, _, _, _, _⟩ :=
    initializeEmbeddedLoop_made h b l2.supportedLanguages l2 hmade
  have hk := initializeEmbeddedLoop_keys h b _ l2 l' h1
  rw [hkeys0, appendNew_nil, firstOccurrences_of_nodup _ hnodup] at hk
  have hk' : l'.translations.keys = l'.supportedLanguages := hk.trans hs1.symm
  refine ⟨l', hnew.trans h1, ⟨hn1, ?_, ?_, fun k hk0 => hk' ▸ hk0⟩, hk'⟩
  · rw [hk]; exact hnodup
  · rw [hk, hc1]
    exact detectSystemLanguage_mem h l1 hne

theorem runCalls_keys (calls : List Call) (l l' : Localization) (codes : List String)
    (hinv : StoreInvariant l codes) (hrun : runCalls calls l = some l') :
    ∀ k, k ∈ l'.translations.keys ↔
      k ∈ l.translations.keys ∨ k ∈ succeededLoads calls l := by
  induction calls generalizing l codes with
  | nil =>
    simp only [runCalls, Option.some.injEq] at hrun
    subst hrun
    intro k
    simp [succeededLoads]
  | cons call rest ih =>
    obtain ⟨l1, h1, hinv1, _⟩ := Call.run_invariant call l codes hinv
    have hrest : runCalls rest l1 = some l' := by
      simp only [runCalls, h1] at hrun
      exact hrun
    have hih := ih l1 _ hinv1 hrest
    intro k
    rw [hih k]
    cases call with
    | setLanguage code =>
      simp only [Call.run, Option.some.injEq] at h1
      have hk : l1.translations = l.translations := by
        rw [← h1]
        unfold SetLanguage
        cases l.translations.lookup code <;> rfl
      simp only [succeededLoads, h1, hk]
    | load h code path =>
      rcases LoadTranslationsFromFile_made h l code path hinv.1 with
        ⟨err, hload, _⟩ | ⟨store', decoded, hload, _, _, hl', _⟩
      · have hl1 : l1 = l := by
          simp only [Call.run, hload, Option.map_some', Option.some.injEq] at h1
          exact h1.symm
        subst hl1
        simp only [succeededLoads, hload]
      · have hl1 : l1 = { l with translations := store' } := by
          simp only [Call.run, hload, Option.map_some', Option.some.injEq] at h1
          exact h1.symm
        have hkeys := LoadTranslationsFromFile_keys h l _ code path none hload
        simp only at hkeys
        have hcode : code ∈ store'.keys := (GoMap.mem_keys_iff _ _).2 ⟨_, hl'⟩
        simp only [succeededLoads, hload, List.mem_cons]
        rw [← hl1]
        have hk1 : l1.translations.keys = store'.keys := by rw [hl1]
        rw [hk1]
        rcases hkeys with hk | ⟨_, _, hk⟩
        · rw [hk] at hcode ⊢
          constructor
          · rintro (hm | hm)
            · exact Or.inl hm
            · exact Or.inr (Or.inr hm)
          · rintro (hm | hm | hm)
            · exact Or.inl hm
            · exact Or.inl (hm ▸ hcode)
            · exact Or.inr hm
        · rw [hk]
          simp only [List.mem_append, List.mem_singleton]
          constructor
          · rintro ((hm | hm) | hm)
            · exact Or.inl hm
            · exact Or.inr (Or.inl hm)
            · exact Or.inr (Or.inr hm)
          · rintro (hm | hm | hm)
            · exact Or.inl (Or.inl hm)
            · exact Or.inl (Or.inr hm)
            · exact Or.inr hm

/-- C16, amended.  In every state reached from an instance built by either
constructor by any sequence of `SetLanguage` and `LoadTranslationsFromFile`
calls, the catalogue is the one computed at construction and the active
language is a code of that catalogue or the code of one of the
`LoadTranslationsFromFile` calls that returned without error; `SetLanguage`
accepts exactly these codes, and a call with any other code is rejected and
changes nothing. -/
theorem active_language_in_catalogue_or_loaded (h : Host) (translationsDir : String)
    (b : Bundle) (l0 : Localization) (calls : List Call)
    (hnew : NewLocalizationWithDir h translationsDir = some l0 ∨
      NewEmbeddedLocalization h b = some l0) :
    ∃ l, runCalls calls l0 = some l ∧
      l.supportedLanguages = l0.supportedLanguages ∧
      (l.currentLanguage ∈ l0.supportedLanguages ∨
        l.currentLanguage ∈ succeededLoads calls l0) ∧
      ∀ code,
        ((code ∈ l0.supportedLanguages ∨ code ∈ succeededLoads calls l0) →
          SetLanguage l code = ({ l with currentLanguage := code }, none)) ∧
        (code ∉ l0.supportedLanguages → code ∉ succeededLoads calls l0 →
          SetLanguage l code = (l, some (GoError.unsupportedLanguage code))) := by
  have hinit : StoreInvariant l0 l0.supportedLanguages ∧
      l0.translations.keys = l0.supportedLanguages := by
    rcases hnew with hnew | hnew
    · obtain ⟨l0', hl0, hinv0, hk0⟩ := NewLocalizationWithDir_invariant h translationsDir
      have heq : l0' = l0 := Option.some.inj (hl0.symm.trans hnew)
      subst heq
      exact ⟨hinv0, hk0⟩
    · obtain ⟨l0', hl0, hinv0, hk0⟩ := NewEmbeddedLocalization_invariant h b
      have heq : l0' = l0 := Option.some.inj (hl0.symm.trans hnew)
      subst heq
      exact ⟨hinv0, hk0⟩
  obtain ⟨l, hrun, ⟨_, _, hcur, _⟩, hs⟩ := runCalls_invariant calls l0 _ hinit.1
  have hkeys := runCalls_keys calls l0 l _ hinit.1 hrun
  rw [hinit.2] at hkeys
  refine ⟨l, hrun, hs, (hkeys _).1 hcur, ?_⟩
  intro code
  constructor
  · intro hcode
    obtain ⟨t, ht⟩ := (GoMap.mem_keys_iff _ _).1 ((hkeys code).2 hcode)
    simp [SetLanguage, ht]
  · intro hc1 hc2
    have hno : l.translations.lookup code = none := by
      cases hl : l.translations.lookup code with
      | none => rfl
      | some t =>
        rcases (hkeys code).1 ((GoMap.mem_keys_iff _ _).2 ⟨t, hl⟩) with hm | hm
        · exact absurd hm hc1
        · exact absurd hm hc2
    simp [SetLanguage, hno]

theorem active_language_in_catalogue_or_loaded_witness :
    NewLocalizationWithDir extraHost "locale" = some englishOnly ∧
      succeededLoads failingThenSwitchCalls englishOnly = ["xx"] ∧
      ∃ l, runCalls failingThenSwitchCalls englishOnly = some l ∧
        (l.currentLanguage ∈ englishOnly.supportedLanguages ∨
          l.currentLanguage ∈ succeededLoads failingThenSwitchCalls englishOnly) ∧
        SetLanguage l "en" = ({ l with currentLanguage := "en" }, none) ∧
        SetLanguage l "yy" = (l, some (GoError.unsupportedLanguage "yy")) :=
  ⟨by decide, by decide,
    (active_language_in_catalogue_or_loaded extraHost "locale" nullBundle englishOnly
      failingThenSwitchCalls (Or.inl (by decide))).imp
      fun _ hl => ⟨hl.1, hl.2.2.1, (hl.2.2.2 "en").1 (Or.inl (by decide)),
        (hl.2.2.2 "yy").2 (by decide) (by decide)⟩⟩

/-- C17. Right after construction, by either constructor,
`GetSupportedLanguages` returns a permutation of the catalogue; and in every
state reached from there by `SetLanguage` and `LoadTranslationsFromFile` calls
the list it returns has no repetition, contains exactly the codes that have an
entry in the store, and has as many elements as the store has entries. -/
theorem GetSupportedLanguages_lists_store (h : Host) (translationsDir : String)
    (b : Bundle) (l0 : Localization) (calls : List Call)
    (hnew : NewLocalizationWithDir h translationsDir = some l0 ∨
      NewEmbeddedLocalization h b = some l0) :
    (GetSupportedLanguages l0).Perm l0.supportedLanguages ∧
    ∃ l, runCalls calls l0 = some l ∧
      (GetSupportedLanguages l).Nodup ∧
      (∀ c, c ∈ GetSupportedLanguages l ↔ HasEntry l c) ∧
      (GetSupportedLanguages l).length = l.translations.len := by
  have hinit : StoreInvariant l0 l0.supportedLanguages ∧
      l0.translations.keys = l0.supportedLanguages := by
    rcases hnew with hnew | hnew
    · obtain ⟨l0', hl0, hinv0, hk0⟩ := NewLocalizationWithDir_invariant h translationsDir
      have heq : l0' = l0 := Option.some.inj (hl0.symm.trans hnew)
      subst heq
      exact ⟨hinv0, hk0⟩
    · obtain ⟨l0', hl0, hinv0, hk0⟩ := NewEmbeddedLocalization_invariant h b
      have heq : l0' = l0 := Option.some.inj (hl0.symm.trans hnew)
      subst heq
      exact ⟨hinv0, hk0⟩
  obtain ⟨l, hrun, ⟨_, hnodup, _, _⟩, _⟩ := runCalls_invariant calls l0 _ hinit.1
  refine ⟨?_, l, hrun, hnodup, ?_, ?_⟩
  · unfold GetSupportedLanguages
    rw [hinit.2]
  · intro c
    exact GoMap.mem_keys_iff _ _
  · simp [GetSupportedLanguages, GoMap.keys, GoMap.len]

theorem GetSupportedLanguages_lists_store_witness :
    NewLocalizationWithDir mixedHost "locale" = some mixedState ∧
      GetSupportedLanguages mixedState = ["en", "ru"] ∧
      (GetSupportedLanguages mixedState).Perm mixedState.supportedLanguages ∧
      ∃ l, runCalls switchCalls mixedState = some l ∧
        (GetSupportedLanguages l).Nodup ∧
        (GetSupportedLanguages l).length = l.translations.len :=
  have hnew : NewLocalizationWithDir mixedHost "locale" = some mixedState := by decide
  have hthm := GetSupportedLanguages_lists_store mixedHost "locale" nullBundle mixedState
    switchCalls (Or.inl hnew)
  ⟨hnew, by decide, hthm.1, hthm.2.imp fun _ hl => ⟨hl.1, hl.2.1, hl.2.2.2⟩⟩

/-! ## Saving and the round trip -/

theorem lookup_iff_mem {β : Type} (k : String) (v : β) (es : List (String × β))
    (hes : (es.map Prod.fst).Nodup) : List.lookup k es = some v ↔ (k, v) ∈ es := by
  constructor
  · exact mem_of_lookup k v es
  · intro hmem
    induction es with
    | nil => cases hmem
    | cons e rest ih =>
      obtain ⟨k1, v1⟩ := e
      simp only [List.map_cons, List.nodup_cons] at hes
      rcases List.mem_cons.1 hmem with heq | hrest
      · simp only [Prod.mk.injEq] at heq
        simp [List.lookup, heq.1, heq.2]
      · have hne : k ≠ k1 := by
          rintro rfl
          exact hes.1 (List.mem_map.2 ⟨(k, v), hrest, rfl⟩)
        have hb : (k == k1) = false := by simp [hne]
        simp only [List.lookup, hb]
        exact ih hes.2 hrest

theorem lookup_perm {β : Type} (es es' : List (String × β)) (hp : es.Perm es')
    (hes : (es.map Prod.fst).Nodup) (k : String) : List.lookup k es' = List.lookup k es := by
  have hes' : (es'.map Prod.fst).Nodup := (hp.map Prod.fst).nodup_iff.1 hes
  apply Option.ext
  intro v
  simp only [Option.mem_def]
  rw [lookup_iff_mem k v es' hes', lookup_iff_mem k v es hes]
  exact hp.symm.mem_iff

theorem MarshalIndent_decodes (t : GoMap String) (hkeys : t.keys.Nodup) :
    ∃ decoded, Unmarshal (MarshalIndent t) = Except.ok decoded ∧
      (decoded.entries.map Prod.fst).Nodup ∧
      ∀ key, List.lookup key decoded.entries = t.lookup key := by
  cases t with
  | nil => exact ⟨GoMap.nil, rfl, by simp [GoMap.entries], fun _ => rfl⟩
  | mk es =>
    have hp := List.perm_insertionSort (fun a b : String × String => ¬ b.1 < a.1) es
    have hsorted : ((es.insertionSort fun a b => ¬ b.1 < a.1).map Prod.fst).Nodup :=
      (hp.map Prod.fst).nodup_iff.2 hkeys
    refine ⟨GoMap.mk (es.insertionSort fun a b => ¬ b.1 < a.1), ?_, hsorted, ?_⟩
    · exact Unmarshal_flatObject _ hsorted
    · intro key
      exact lookup_perm es _ hp.symm hkeys key

/-- C15. Round trip.  When the store of an instance has a table `t` for `c`
(a Go map: its keys are distinct) and `SaveTranslationsToFile(c, path)` returns
no error, then, the file holding what was written, a following
`LoadTranslationsFromFile(c, path)` on an instance whose table for `c` is empty
returns no error and leaves that table equal to `t`, key for key and value for
value. -/
theorem save_then_load_round_trip (d : Disk) (h : Host) (l l2 : Localization)
    (c filePath : String) (t : GoMap String) (data : FileData)
    (htable : l.translations.lookup c = some t)
    (hkeys : t.keys.Nodup)
    (hsave : SaveTranslationsToFile d l c filePath = (none, some data))
    (hfile : h.readFile filePath = some data)
    (hempty : l2.translations.lookup c = some GoMap.make) :
    ∃ l3, LoadTranslationsFromFile h l2 c filePath = some (l3, none) ∧
      ∃ t3, l3.translations.lookup c = some t3 ∧ ∀ key, t3.lookup key = t.lookup key := by
  have hdata : data = MarshalIndent t := by
    unfold SaveTranslationsToFile at hsave
    rw [htable] at hsave
    simp only at hsave
    split at hsave
    · split at hsave
      · simp only [Prod.mk.injEq, Option.some.injEq, true_and] at hsave
        exact hsave.symm
      · simp at hsave
    · simp at hsave
  obtain ⟨decoded, hun, hnodup, hlook⟩ := MarshalIndent_decodes t hkeys
  have hmade : l2.translations.isNil = false := by
    cases hm : l2.translations with
    | nil => rw [hm] at hempty; exact Option.noConfusion hempty
    | mk es => rfl
  rcases LoadTranslationsFromFile_made h l2 c filePath hmade with
    ⟨e, _, hno | ⟨data', hd', hun'⟩⟩ | ⟨store', decoded', hs, _, ⟨data', hd', hun'⟩, hl', _⟩
  · rw [hfile] at hno; exact Option.noConfusion hno
  · rw [hfile] at hd'
    rw [← Option.some.inj hd', hdata, hun] at hun'
    exact Except.noConfusion hun'
  · rw [hfile] at hd'
    rw [← Option.some.inj hd', hdata, hun] at hun'
    have hdec : decoded' = decoded := (Except.ok.inj hun').symm
    subst hdec
    refine ⟨_, hs, _, hl', ?_⟩
    intro key
    have hmk : (GoMap.make : GoMap String).entries = [] := rfl
    rw [hempty]
    simp only [Option.getD_some]
    rw [hmk, foldl_storeEntries_new decoded'.entries [] hnodup (by simp)]
    show List.lookup key ([] ++ decoded'.entries) = _
    rw [List.nil_append]
    exact hlook key

theorem save_then_load_round_trip_witness :
    SaveTranslationsToFile plainDisk englishOnly "en" "out/en.json"
        = (none, some (MarshalIndent (getDefaultTranslations "en"))) ∧
      ∃ l3, LoadTranslationsFromFile savedHost emptyEnglish "en" "out/en.json"
          = some (l3, none) ∧
        ∃ t3, l3.translations.lookup "en" = some t3 ∧
          ∀ key, t3.lookup key = (getDefaultTranslations "en").lookup key :=
  ⟨rfl, save_then_load_round_trip plainDisk savedHost englishOnly emptyEnglish "en"
    "out/en.json" (getDefaultTranslations "en") _ (by decide) (by decide) rfl rfl (by decide)⟩

/-! ## Locking -/

/-- C18, the failing method.  `SaveTranslationsToFile` releases the read lock
after fetching the store's entry and then reads the table itself, in
`json.MarshalIndent`, holding no lock, so its steps do not keep the locking
discipline; the steps of the six other public methods do. -/
theorem SaveTranslationsToFile_reads_table_unlocked :
    disciplined Held.free (lockSteps Method.SaveTranslationsToFile) = false ∧
      lockSteps Method.SaveTranslationsToFile =
        [LockStep.rLock, LockStep.read SharedData.translations, LockStep.rUnlock,
          LockStep.read SharedData.table] ∧
      disciplined Held.free (lockSteps Method.SetLanguage) = true ∧
      disciplined Held.free (lockSteps Method.GetLanguage) = true ∧
      disciplined Held.free (lockSteps Method.Get) = true ∧
      disciplined Held.free (lockSteps Method.GetSupportedLanguages) = true ∧
      disciplined Held.free (lockSteps Method.IsEmbedded) = true ∧
      disciplined Held.free (lockSteps Method.LoadTranslationsFromFile) = true := by
  decide

end Criage
